import Mathlib

/-!
# Verification of the spine-engine project graph and execution engine

Shallow embedding of `spine_engine/project/project.py`,
`spine_engine/project/connection.py`, `spine_engine/project/jump.py` and
`spine_engine/spine_engine.py`, with theorems settling the specification
claims about them.

Python dictionaries are embedded as association lists (first binding wins,
as `dict` lookup; insertion appends, matching `dict` iteration order).
Exceptions are embedded by returning `Except` outcomes *paired with the
post-call object state*, since a raised Python exception leaves the mutated
object behind.
-/

namespace SpineVerif

/-- Association-list lookup, the embedding of Python `dict.__getitem__` /
`dict.get`: returns the value of the first binding of the key. -/
def alookup {K V : Type} [DecidableEq K] (l : List (K × V)) (k : K) : Option V :=
  (l.find? (fun e => decide (e.1 = k))).map (·.2)

/-! ## Connection and resources (`spine_engine/project/connection.py`) -/

/-- Metadata values that `Connection` stamps onto resources.
`partCountV` stands for the `PartCount()` object (from
`spine_engine.utils.helpers`, whose source is not in the snapshot); the
claims only concern its presence in the metadata. -/
inductive MetaValue : Type where
  | boolV : Bool → MetaValue
  /-- value of the "current" key: the (source, destination) node-name pair -/
  | currentV : String × String → MetaValue
  /-- value of the "precursors" key: set of sibling (source, destination) keys -/
  | precursorsV : List (String × String) → MetaValue
  /-- value of the "part_count" key: a `PartCount()` instance -/
  | partCountV : MetaValue
  deriving DecidableEq, Repr

/-- Python `dict.update` on metadata: later keys overwrite earlier ones,
new keys are appended. -/
def updateMeta (m : List (String × MetaValue)) : List (String × MetaValue) → List (String × MetaValue)
  | [] => m
  | (k, v) :: rest =>
      if (alookup m k).isSome then
        updateMeta (m.map (fun e => if e.1 = k then (k, v) else e)) rest
      else
        updateMeta (m ++ [(k, v)]) rest

/-- Modelled from the spec: `ProjectItemResource`
(`spine_engine/project_item/project_item_resource.py` is not in the
snapshot).  Per the spec resources are "immutable value objects" with a
type, a label, a provider name and a metadata map; "cloning produces a new
resource with merged metadata, never mutates the original". -/
structure ProjectItemResource where
  type_ : String
  label : String
  provider_name : String
  metadata : List (String × MetaValue) := []
  deriving DecidableEq, Repr

/-- Modelled from the spec: `ProjectItemResource.clone` with
`additional_metadata`, producing a new resource with merged metadata. -/
def ProjectItemResource.clone (r : ProjectItemResource)
    (additional_metadata : List (String × MetaValue)) : ProjectItemResource :=
  { r with metadata := updateMeta r.metadata additional_metadata }

/-- `Connection`: only the two options inspected by the verified operations
are given fields; every other attribute of the Python object (remaining
options, filter settings, and the object's identity) is carried opaquely in
`payload`. `none` embeds an absent `options` key. -/
structure Connection where
  options_use_memory_db : Option Bool := none
  options_write_index : Option Int := none
  payload : Nat := 0
  deriving DecidableEq, Repr

/-- `Connection.use_memory_db`: `self.options.get("use_memory_db", False)`. -/
def Connection.use_memory_db (c : Connection) : Bool :=
  c.options_use_memory_db.getD false

/-- `Connection.write_index`: `self.options.get("write_index", 1)`. -/
def Connection.write_index (c : Connection) : Int :=
  c.options_write_index.getD 1

/-- `Connection._apply_use_memory_db`: if `use_memory_db` is unset, the
resources are returned unchanged; otherwise database resources are cloned
with `{"memory": True}`. -/
def Connection._apply_use_memory_db (c : Connection)
    (resources : List ProjectItemResource) : List ProjectItemResource :=
  if ¬c.use_memory_db then resources
  else resources.map (fun r =>
    if r.type_ = "database" then r.clone [("memory", .boolV true)] else r)

/-- `Connection._apply_write_index`: database resources are cloned with
`current` (this connection's node-name pair), `precursors` (the sibling
connections with strictly smaller write index), and a fresh `PartCount()`. -/
def Connection._apply_write_index (c : Connection)
    (resources : List ProjectItemResource) (node_names : String × String)
    (sibling_connections : List ((String × String) × Connection)) :
    List ProjectItemResource :=
  let precursors := sibling_connections.filterMap
    (fun e => if e.2.write_index < c.write_index then some e.1 else none)
  resources.map (fun r =>
    if r.type_ = "database" then
      r.clone [("current", .currentV node_names),
               ("precursors", .precursorsV precursors),
               ("part_count", .partCountV)]
    else r)

/-- `Connection.convert_backward_resources`. -/
def Connection.convert_backward_resources (c : Connection)
    (resources : List ProjectItemResource) (node_names : String × String)
    (sibling_connections : List ((String × String) × Connection)) :
    List ProjectItemResource :=
  c._apply_use_memory_db (c._apply_write_index resources node_names sibling_connections)

/-! ## Project graph (`spine_engine/project/project.py`)

`Project` subclasses `networkx.DiGraph`; the embedding keeps the node key
list, the edge-attribute dict (keyed by `(source, destination)`, holding the
`"connection"` attribute) and the `jumps` graph attribute.  The per-node
`"item"` attribute is an external `ProjectItem` that the verified operations
touch only through side-effecting callbacks (`set_project`,
`rename_data_dir`) which do not change graph state, so it is not carried. -/

/-- `Jump` (`spine_engine/project/jump.py`): source and destination node
names.  `condition` and `cmd_line_args` are never inspected by the graph
operations; together with the Python object's identity they are carried
opaquely in `payload`. -/
structure Jump where
  source : String
  destination : String
  payload : Nat := 0
  deriving DecidableEq, Repr

structure Project where
  nodes : List String
  edges : List ((String × String) × Connection)
  jumps : List Jump
  deriving DecidableEq, Repr

/-- The exceptions raised by `Project` operations
(`spine_engine/exception.py`). -/
inductive ProjectError : Type where
  | componentNotFound
  | invalidConnection
  | invalidJump
  | duplicateName
  | duplicateShortName
  | nameContainsInvalidCharacters
  deriving DecidableEq, Repr

/-- Outcome of a Python method: the `Except` result of the call together
with the state the object is left in (exceptions do not roll back state
by themselves). -/
abbrev PResult (α : Type) := Except ProjectError α × Project

def Project.hasNode (p : Project) (n : String) : Bool := n ∈ p.nodes

def Project.getConnection (p : Project) (s d : String) : Option Connection :=
  alookup p.edges (s, d)

/-- `networkx.DiGraph.add_node` on a bare name: appends the key if new
(re-adding an existing node keeps its position). -/
def Project.addNodeRaw (p : Project) (n : String) : Project :=
  if n ∈ p.nodes then p else { p with nodes := p.nodes ++ [n] }

/-- `networkx.DiGraph.add_edge`: auto-adds missing endpoint nodes, then
overwrites the attributes of an existing `(s, d)` edge or appends a new
one. -/
def Project.addEdgeRaw (p : Project) (s d : String) (c : Connection) : Project :=
  let p1 := (p.addNodeRaw s).addNodeRaw d
  if (alookup p1.edges (s, d)).isSome then
    { p1 with edges := p1.edges.map (fun e => if e.1 = (s, d) then ((s, d), c) else e) }
  else
    { p1 with edges := p1.edges ++ [((s, d), c)] }

/-- `networkx.DiGraph.remove_edge` (on an existing edge). -/
def Project.removeEdgeRaw (p : Project) (s d : String) : Project :=
  { p with edges := p.edges.filter (fun e => decide (e.1 ≠ (s, d))) }

/-- `networkx.DiGraph.remove_node`: removes the node and its incident
edges. -/
def Project.removeNodeRaw (p : Project) (n : String) : Project :=
  { p with
    nodes := p.nodes.filter (fun m => decide (m ≠ n)),
    edges := p.edges.filter (fun e => decide (e.1.1 ≠ n ∧ e.1.2 ≠ n)) }

/-- Direct successors of `u` in the edge list. -/
def edgeSuccessors (edges : List ((String × String) × Connection)) (u : String) :
    List String :=
  edges.filterMap (fun e => if e.1.1 = u then some e.1.2 else none)

/-- One breadth-first expansion round over the accumulated node set. -/
def reachStep (edges : List ((String × String) × Connection)) (acc : List String) :
    List String :=
  acc ++ ((acc.flatMap (edgeSuccessors edges)).filter (fun v => decide (v ∉ acc))).dedup

def reachAux (edges : List ((String × String) × Connection)) :
    Nat → List String → List String
  | 0, acc => acc
  | fuel + 1, acc => reachAux edges fuel (reachStep edges acc)

/-- Nodes reachable from `u` (including `u` itself) along the edges.  Each
expansion round either adds a node or reaches a fixpoint, and every node
added is the head of some edge, so `edges.length + 1` rounds saturate. -/
def Project.reachableFrom (p : Project) (u : String) : List String :=
  reachAux p.edges (p.edges.length + 1) [u]

/-- `networkx.has_path(self, u, v)` (a length-0 path makes
`has_path(u, u)` true). -/
def Project.hasPath (p : Project) (u v : String) : Bool :=
  v ∈ p.reachableFrom u

/-- `Project` reversed as by `networkx.reverse_view`. -/
def Project.reverseView (p : Project) : Project :=
  { p with edges := p.edges.map (fun e => ((e.1.2, e.1.1), e.2)) }

/-- `networkx.is_directed_acyclic_graph`: no edge closes a directed cycle. -/
def Project.is_directed_acyclic_graph (p : Project) : Bool :=
  ¬p.edges.any (fun e => p.hasPath e.1.2 e.1.1)

/-- All simple paths from `cur` to `tgt` avoiding `visited`, by depth-first
enumeration; `fuel` bounds the recursion depth (simple paths visit at most
`p.nodes.length` distinct nodes). -/
def simplePathsAux (edges : List ((String × String) × Connection)) :
    Nat → String → String → List String → List (List String)
  | 0, _, _, _ => []
  | fuel + 1, cur, tgt, visited =>
      if cur = tgt then [[cur]]
      else
        ((edgeSuccessors edges cur).filter (fun v => decide (v ∉ visited))).flatMap
          (fun nxt =>
            (simplePathsAux edges fuel nxt tgt (cur :: visited)).map (cur :: ·))

/-- The set (as a deduplicated list) of nodes lying on any simple path from
`src` to `tgt`, as computed by iterating `networkx.all_simple_paths`:
the generator raises `NodeNotFound` for a missing endpoint (caught by
`_get_nodes_by_jump`, giving the empty set) and yields nothing when
`src = tgt`. -/
def Project.nodesOnSimplePaths (p : Project) (src tgt : String) : List String :=
  if ¬p.hasNode src ∨ ¬p.hasNode tgt then []
  else if src = tgt then []
  else ((simplePathsAux p.edges (p.nodes.length + 1) src tgt []).flatMap id).dedup

/-- `Project._get_nodes_by_jump`: maps each jump's
`(source, destination)` key to the set of nodes on simple paths from the
jump's destination to its source. -/
def Project._get_nodes_by_jump (p : Project) :
    List ((String × String) × List String) :=
  p.jumps.map (fun j =>
    ((j.source, j.destination), p.nodesOnSimplePaths j.destination j.source))

/-- Set-equality of node lists (Python compares `set`s). -/
def nodeSetEq (a b : List String) : Bool :=
  a.all (fun x => decide (x ∈ b)) && b.all (fun x => decide (x ∈ a))

/-- The per-`other` body of the loop in `Project._validate_jump`: `other`s
identical to the validated jump are skipped (`other is jump`; `payload`
stands for Python object identity), a shared source is rejected, and the
enclosed node sets must intersect in the empty set or in one of the two
sets. -/
def validateJumpOthers (ibj : List ((String × String) × List String))
    (j : Jump) : List Jump → Except ProjectError Unit
  | [] => .ok ()
  | other :: rest =>
      if other = j then validateJumpOthers ibj j rest
      else if other.source = j.source then .error .invalidJump
      else
        let jump_items := (alookup ibj (j.source, j.destination)).getD []
        let other_items := (alookup ibj (other.source, other.destination)).getD []
        let inter := jump_items.filter (fun x => decide (x ∈ other_items))
        if nodeSetEq inter [] || nodeSetEq inter jump_items || nodeSetEq inter other_items then
          validateJumpOthers ibj j rest
        else .error .invalidJump

/-- `Project._validate_jump`. -/
def Project._validate_jump (p : Project) (j : Jump)
    (ibj : List ((String × String) × List String)) : Except ProjectError Unit := do
  match validateJumpOthers ibj j p.jumps with
  | .error e => throw e
  | .ok () =>
    if ¬p.hasNode j.destination then throw .invalidJump
    else if ¬p.hasNode j.source then throw .invalidJump
    else if j.source = j.destination then pure ()
    else if p.hasPath j.source j.destination then throw .invalidJump
    else if ¬p.reverseView.hasPath j.source j.destination then throw .invalidJump
    else pure ()

/-- `Project.get_jump`: first jump with the given source and destination. -/
def Project.get_jump (p : Project) (source destination : String) : Except ProjectError Jump :=
  match p.jumps.find? (fun j => decide (j.source = source ∧ j.destination = destination)) with
  | some j => .ok j
  | none => .error .componentNotFound

/-- `Project.add_edge`. -/
def Project.add_edge (p : Project) (source destination : String) (c : Connection) :
    PResult Unit :=
  if ¬(p.hasNode source) ∨ ¬(p.hasNode destination) then
    (.error .componentNotFound, p)
  else if source = destination then
    (.error .invalidConnection, p)
  else
    let p1 := p.addEdgeRaw source destination c
    if ¬p1.is_directed_acyclic_graph then
      (.error .invalidConnection, p1.removeEdgeRaw source destination)
    else
      (.ok (), p1)

/-- First jump in the list that `_validate_jump` rejects, if any
(the `for jump in jumps: try ... except` loop of `remove_edge`). -/
def firstInvalidJump (p : Project) (ibj : List ((String × String) × List String)) :
    List Jump → Option Jump
  | [] => none
  | j :: rest =>
      match p._validate_jump j ibj with
      | .error _ => some j
      | .ok () => firstInvalidJump p ibj rest

/-- `Project.remove_edge`. -/
def Project.remove_edge (p : Project) (source destination : String) : PResult Unit :=
  if p.jumps = [] then
    if (alookup p.edges (source, destination)).isSome then
      (.ok (), p.removeEdgeRaw source destination)
    else
      (.error .componentNotFound, p)
  else
    match alookup p.edges (source, destination) with
    | none => (.error .componentNotFound, p)
    | some c =>
        let p1 := p.removeEdgeRaw source destination
        let ibj := p1._get_nodes_by_jump
        match firstInvalidJump p1 ibj p1.jumps with
        | some _ => (.error .invalidJump, p1.addEdgeRaw source destination c)
        | none => (.ok (), p1)

/-- `Project.remove_node`: removes the node with its incident edges, then
drops the jumps that touch it and re-validates the rest (against the
reduced graph, with the original jump list still as validation context). -/
def Project.remove_node (p : Project) (name : String) : PResult Unit :=
  if ¬p.hasNode name then (.error .componentNotFound, p)
  else
    let p1 := p.removeNodeRaw name
    if p1.jumps = [] then (.ok (), p1)
    else
      let jumps_to_keep := p1.jumps.filter
        (fun j => decide (j.source ≠ name ∧ j.destination ≠ name))
      if jumps_to_keep = [] then (.ok (), { p1 with jumps := [] })
      else
        let ibj := p1._get_nodes_by_jump
        let valid_jumps := p1.jumps.filter (fun j => (p1._validate_jump j ibj).toBool)
        (.ok (), { p1 with jumps := valid_jumps })

/-- The edges that `rename_node` re-adds for the incoming side: each edge
`(s, name)` becomes `(s, new_name)` carrying the same connection. -/
def Project.renamedIncoming (p : Project) (name new_name : String) :
    List ((String × String) × Connection) :=
  (p.edges.filterMap (fun e => if e.1.2 = name then some (e.1.1, e.2) else none)).map
    (fun sc => ((sc.1, new_name), sc.2))

/-- The edges that `rename_node` re-adds for the outgoing side: each edge
`(name, d)` becomes `(new_name, d)` carrying the same connection. -/
def Project.renamedOutgoing (p : Project) (name new_name : String) :
    List ((String × String) × Connection) :=
  (p.edges.filterMap (fun e => if e.1.1 = name then some (e.1.2, e.2) else none)).map
    (fun dc => ((new_name, dc.1), dc.2))

/-- The project state `p4` that `rename_node` reaches after re-adding the
incoming and outgoing edges of the renamed node (before updating jumps). -/
def Project.renameFoldOutcome (p : Project) (name new_name : String) : Project :=
  (p.edges.filterMap (fun e => if e.1.1 = name then some (e.1.2, e.2) else none)).foldl
    (fun q2 dc => q2.addEdgeRaw new_name dc.1 dc.2)
    ((p.edges.filterMap
      (fun e => if e.1.2 = name then some (e.1.1, e.2) else none)).foldl
      (fun q2 sc => q2.addEdgeRaw sc.1 new_name sc.2)
      { p.removeNodeRaw name with
        nodes := (p.removeNodeRaw name).nodes ++ [new_name] })

/-- The `valid_jumps` list that `remove_node` keeps: every original jump
that `_validate_jump` accepts against the reduced graph (with the original
jump list still in place as validation context). -/
def Project.removedValidJumps (p : Project) (name : String) : List Jump :=
  (p.removeNodeRaw name).jumps.filter
    (fun j => ((p.removeNodeRaw name)._validate_jump j
      ((p.removeNodeRaw name)._get_nodes_by_jump)).toBool)

/-- `Project.make_jump`: returns the existing jump with the same endpoints
if there is one; otherwise appends a new jump (carrying `payload` as the
fresh object's identity), validates it, and pops it again on rejection. -/
def Project.make_jump (p : Project) (source destination : String) (payload : Nat) :
    PResult Jump :=
  if ¬(p.hasNode source) ∨ ¬(p.hasNode destination) then
    (.error .componentNotFound, p)
  else
    match p.get_jump source destination with
    | .ok j => (.ok j, p)
    | .error _ =>
        let j : Jump := { source := source, destination := destination, payload := payload }
        let p1 := { p with jumps := p.jumps ++ [j] }
        let ibj := p1._get_nodes_by_jump
        match p1._validate_jump j ibj with
        | .ok () => (.ok j, p1)
        | .error e => (.error e, p)

/-- The claim's acceptance conditions for a candidate jump `s → d`, stated
from the spec's words: no other jump starts at `s`; the candidate's
enclosed node set (nodes on simple paths from destination to source) is
disjoint from, a subset of, or a superset of every other jump's enclosed
set; and the jump is a self-jump, or there is no forward path `s → d` but
there is a reverse-direction one. -/
def jumpAcceptableSpec (p : Project) (s d : String) : Prop :=
  (∀ other ∈ p.jumps, other.source ≠ s)
  ∧ (∀ other ∈ p.jumps,
      (∀ x ∈ p.nodesOnSimplePaths d s,
        x ∉ p.nodesOnSimplePaths other.destination other.source)
      ∨ (∀ x ∈ p.nodesOnSimplePaths d s,
        x ∈ p.nodesOnSimplePaths other.destination other.source)
      ∨ (∀ x ∈ p.nodesOnSimplePaths other.destination other.source,
        x ∈ p.nodesOnSimplePaths d s))
  ∧ (s = d ∨ (¬p.hasPath s d = true ∧ p.reverseView.hasPath s d = true))

instance (p : Project) (s d : String) : Decidable (jumpAcceptableSpec p s d) := by
  unfold jumpAcceptableSpec
  infer_instance

/-- Modelled from the spec: `spine_engine.utils.helpers.shorten` is not in
the snapshot; per the spec the short name is "derived deterministically
from the name", and the tests pair `"Node"` with short name `"node"`, so
the embedding lower-cases and replaces spaces by underscores. -/
def shorten (name : String) : String :=
  (name.toLower).replace " " "_"

/-- `Project.rename_node`. -/
def Project.rename_node (p : Project) (name new_name : String) : PResult Unit :=
  if ¬p.hasNode name then (.error .componentNotFound, p)
  else if p.hasNode new_name then (.error .duplicateName, p)
  else if p.nodes.any (fun n => decide (shorten new_name = shorten n)) then
    (.error .duplicateShortName, p)
  else
    let incoming := p.edges.filterMap
      (fun e => if e.1.2 = name then some (e.1.1, e.2) else none)
    let outgoing := p.edges.filterMap
      (fun e => if e.1.1 = name then some (e.1.2, e.2) else none)
    let p1 := p.removeNodeRaw name
    let p2 := { p1 with nodes := p1.nodes ++ [new_name] }
    let p3 := incoming.foldl (fun q sc => q.addEdgeRaw sc.1 new_name sc.2) p2
    let p4 := outgoing.foldl (fun q dc => q.addEdgeRaw new_name dc.1 dc.2) p3
    (.ok (), { p4 with jumps := p4.jumps.map (fun j =>
      { j with
        source := if j.source = name then new_name else j.source,
        destination := if j.destination = name then new_name else j.destination }) })

/-! ## Execution engine (`spine_engine/spine_engine.py`)

`SpineEngine` drives two dagster `PipelineDefinition`s through
`execute_pipeline_iterator`, processing the streamed events with
`_process_event`.  dagster itself is a third-party library; following the
spec (§4.3, §5: an in-process executor runs one solid at a time in a
topological order of the dependency graph, skips steps whose upstream did
not succeed, and interleaves `STEP_START` / `STEP_FAILURE` /
`STEP_SUCCESS` / `STEP_SKIPPED` events with execution), the embedding is a
sequential scheduler that repeatedly runs the first not-yet-processed solid
whose dependencies are all processed.  The `compute_fn` body is translated
directly from `SpineEngine._make_solid_def`. -/

inductive ExecutionDirection : Type where
  | FORWARD
  | BACKWARD
  deriving DecidableEq, Repr

inductive SpineEngineState : Type where
  | SLEEPING
  | RUNNING
  | USER_STOPPED
  | FAILED
  | COMPLETED
  deriving DecidableEq, Repr

inductive DagsterEventType : Type where
  | STEP_START
  | STEP_FAILURE
  | STEP_SUCCESS
  | STEP_SKIPPED
  deriving DecidableEq, Repr

structure DagsterEvent where
  event_type : DagsterEventType
  solid_name : String
  deriving DecidableEq, Repr

/-- An `ExecutableItemBase` as the engine consumes it: `old_execute`
returning success per direction, and the declared `output_resources` per
direction (resources are opaque labels here). -/
structure ExecutableItem where
  name : String
  executeOk : ExecutionDirection → Bool
  outputResources : ExecutionDirection → List String

/-- Record of one invocation of an item's execution contract inside
`compute_fn`: `isExecute = true` for `old_execute`, `false` for
`skip_execution`; `inputs` is the flattened input-resource list passed. -/
structure TraceCall where
  solidId : String
  itemName : String
  direction : ExecutionDirection
  isExecute : Bool
  inputs : List String
  deriving DecidableEq, Repr

/-- An event dispatched through the `EventPublisher`
(`exec_started` / `exec_finished`). -/
structure PubEvent where
  eventName : String
  itemName : String
  direction : ExecutionDirection
  /-- the engine state in the payload; `none` for `exec_started`, which has
  no `state` key -/
  state : Option SpineEngineState
  deriving DecidableEq, Repr

inductive StepOutcome : Type where
  | success
  | failure
  | skipped
  deriving DecidableEq, Repr

/-- The evolving run state: the engine's `_state` and `_running_item`, the
published event stream, the contract-invocation trace, and the per-solid
step outcomes of the pipeline currently executing (newest first). -/
structure PipelineState where
  engineState : SpineEngineState
  runningItem : Option String
  published : List PubEvent
  calls : List TraceCall
  outcomes : List (String × StepOutcome)

structure SpineEngineModel where
  items : List ExecutableItem
  successors : List (String × List String)
  execution_permits : List (String × Bool)

/-- `SpineEngine.make_name_lookup`: item name to dagster-friendly id
(a rising integer as a string). -/
def SpineEngineModel.nameLookup (em : SpineEngineModel) : List (String × String) :=
  em.items.enum.map (fun e => (e.2.name, toString e.1))

/-- The solids of either pipeline: one per item, keyed by the item's id. -/
def SpineEngineModel.solids (em : SpineEngineModel) : List (String × ExecutableItem) :=
  em.items.enum.map (fun e => (toString e.1, e.2))

/-- `self._project_item_lookup[event.solid_name].name` (used for event
payloads; defaults to the empty string for an unknown solid, a case the
engine itself never produces). -/
def SpineEngineModel.itemNameOf (em : SpineEngineModel) (sid : String) : String :=
  (((em.solids).find? (fun e => decide (e.1 = sid))).map (·.2.name)).getD ""

/-- `back_injectors`: the successor map with names replaced by solid ids
(a name missing from the lookup would be a `KeyError` in Python; the
theorems assume the successor map only mentions item names). -/
def SpineEngineModel.backInjectors (em : SpineEngineModel) :
    List (String × List String) :=
  em.successors.map (fun kv =>
    ((alookup em.nameLookup kv.1).getD "",
     kv.2.map (fun x => (alookup em.nameLookup x).getD "")))

/-- Modelled from the spec: `spine_engine.utils.helpers.inverted` is not in
the snapshot.  Per the spec the forward graph is the inversion of the
successor map ("a node only executes once all its predecessors (by natural
edge direction) have produced their forward outputs"): every value becomes
a key mapped to the keys listing it. -/
def inverted (m : List (String × List String)) : List (String × List String) :=
  ((m.flatMap (·.2)).dedup).map (fun v =>
    (v, m.flatMap (fun kv => kv.2.filterMap (fun x => if x = v then some kv.1 else none))))

def SpineEngineModel.forthInjectors (em : SpineEngineModel) :
    List (String × List String) :=
  inverted em.backInjectors

def SpineEngineModel.injectors (em : SpineEngineModel) :
    ExecutionDirection → List (String × List String)
  | .BACKWARD => em.backInjectors
  | .FORWARD => em.forthInjectors

/-- `SpineEngine.fix_execution_permits`: permit keys replaced by solid
ids. -/
def SpineEngineModel.fixedPermits (em : SpineEngineModel) : List (String × Bool) :=
  em.execution_permits.filterMap (fun kv =>
    (alookup em.nameLookup kv.1).map (fun id2 => (id2, kv.2)))

/-- `item.output_resources(direction)` of the item behind a solid id. -/
def SpineEngineModel.outputsOfSolid (em : SpineEngineModel) (sid : String)
    (dir : ExecutionDirection) : List String :=
  (((em.solids).find? (fun e => decide (e.1 = sid))).map
    (·.2.outputResources dir)).getD []

/-- `SpineEngine._process_event`, translated per event type: `STEP_START`
records the running item and dispatches `exec_started`; `STEP_FAILURE`
moves the state to `FAILED` unless it is `USER_STOPPED` and dispatches
`exec_finished` with the resulting state; `STEP_SUCCESS` dispatches
`exec_finished` with the current state; other event types are ignored. -/
def processEvent (em : SpineEngineModel) (dir : ExecutionDirection)
    (st : PipelineState) (ev : DagsterEvent) : PipelineState :=
  match ev.event_type with
  | .STEP_START =>
      { st with
        runningItem := some ev.solid_name,
        published := st.published ++
          [⟨"exec_started", em.itemNameOf ev.solid_name, dir, none⟩] }
  | .STEP_FAILURE =>
      let newState :=
        if st.engineState ≠ .USER_STOPPED then .FAILED else st.engineState
      { st with
        runningItem := some ev.solid_name,
        engineState := newState,
        published := st.published ++
          [⟨"exec_finished", em.itemNameOf ev.solid_name, dir, some newState⟩] }
  | .STEP_SUCCESS =>
      { st with
        published := st.published ++
          [⟨"exec_finished", em.itemNameOf ev.solid_name, dir, some st.engineState⟩] }
  | .STEP_SKIPPED => st

/-- `SpineEngine.stop` (its state transition; asking the running item to
stop is a side effect on the item). -/
def stopEngine (st : PipelineState) : PipelineState :=
  { st with engineState := .USER_STOPPED }

def processEvents (em : SpineEngineModel) (dir : ExecutionDirection)
    (st : PipelineState) (evs : List DagsterEvent) : PipelineState :=
  evs.foldl (processEvent em dir) st

def processedIds (st : PipelineState) : List String :=
  st.outcomes.map (·.1)

/-- The state after the `STEP_START` event of a solid has streamed through
`_process_event`. -/
def solidStartState (em : SpineEngineModel) (dir : ExecutionDirection)
    (st : PipelineState) (sid : String) : PipelineState :=
  processEvent em dir st ⟨.STEP_START, sid⟩

/-- `inputs = [val for values in inputs.values() for val in values]`: the
flattened input resources a solid receives from its injectors. -/
def solidInputs (em : SpineEngineModel) (dir : ExecutionDirection)
    (inj : List (String × List String)) (sid : String) : List String :=
  ((alookup inj sid).getD []).flatMap (fun d => em.outputsOfSolid d dir)

/-- Records an invocation of `old_execute` / `skip_execution` in the
trace. -/
def recordCall (st : PipelineState) (c : TraceCall) : PipelineState :=
  { st with calls := c :: st.calls }

/-- Pushes the dagster step outcome for a solid (newest first). -/
def pushOutcome (st : PipelineState) (sid : String) (o : StepOutcome) : PipelineState :=
  { st with outcomes := (sid, o) :: st.outcomes }

/-- Executes one solid's step: a step whose upstream did not all succeed is
skipped by dagster; otherwise `STEP_START` streams, then `compute_fn` runs:
it raises `Failure` when the engine is already stopped or failed, otherwise
gathers the flattened inputs and either calls `old_execute` (raising
`Failure` when it returns falsy) or `skip_execution`, finally yielding the
item's `output_resources`. -/
def execSolidStep (em : SpineEngineModel) (dir : ExecutionDirection)
    (inj : List (String × List String)) (permits : List (String × Bool))
    (st : PipelineState) (sid : String) (item : ExecutableItem) : PipelineState :=
  if ((alookup inj sid).getD []).all
      (fun d => decide (alookup st.outcomes d = some .success)) then
    if (solidStartState em dir st sid).engineState = .USER_STOPPED
        ∨ (solidStartState em dir st sid).engineState = .FAILED then
      pushOutcome
        (processEvent em dir (solidStartState em dir st sid) ⟨.STEP_FAILURE, sid⟩)
        sid .failure
    else if (alookup permits sid).getD true then
      if item.executeOk dir then
        pushOutcome
          (processEvent em dir
            (recordCall (solidStartState em dir st sid)
              ⟨sid, item.name, dir, true, solidInputs em dir inj sid⟩)
            ⟨.STEP_SUCCESS, sid⟩)
          sid .success
      else
        pushOutcome
          (processEvent em dir
            (recordCall (solidStartState em dir st sid)
              ⟨sid, item.name, dir, true, solidInputs em dir inj sid⟩)
            ⟨.STEP_FAILURE, sid⟩)
          sid .failure
    else
      pushOutcome
        (processEvent em dir
          (recordCall (solidStartState em dir st sid)
            ⟨sid, item.name, dir, false, solidInputs em dir inj sid⟩)
          ⟨.STEP_SUCCESS, sid⟩)
        sid .success
  else
    pushOutcome (processEvent em dir st ⟨.STEP_SKIPPED, sid⟩) sid .skipped

/-- The next solid the in-process executor runs: the first solid not yet
processed whose dependencies are all processed. -/
def pickReady (em : SpineEngineModel) (inj : List (String × List String))
    (st : PipelineState) : Option (String × ExecutableItem) :=
  em.solids.find? (fun s =>
    decide (s.1 ∉ processedIds st) &&
    ((alookup inj s.1).getD []).all (fun d => decide (d ∈ processedIds st)))

/-- The `execute_pipeline_iterator` loop with `_process_event` applied to
each streamed event, as one pipeline execution. -/
def runPipeline (em : SpineEngineModel) (dir : ExecutionDirection)
    (inj : List (String × List String)) (permits : List (String × Bool)) :
    Nat → PipelineState → PipelineState
  | 0, st => st
  | fuel + 1, st =>
      match pickReady em inj st with
      | none => st
      | some s => runPipeline em dir inj permits fuel
          (execSolidStep em dir inj permits st s.1 s.2)

def initialPipelineState : PipelineState :=
  { engineState := .SLEEPING, runningItem := none, published := [],
    calls := [], outcomes := [] }

/-- The state after `run()` has executed the backward pipeline
(`self._state = RUNNING` first). -/
def SpineEngineModel.runBackwardState (em : SpineEngineModel) : PipelineState :=
  runPipeline em .BACKWARD em.backInjectors em.fixedPermits em.items.length
    { initialPipelineState with engineState := .RUNNING }

/-- The state after the forward pipeline has also executed (the forward
pipeline starts with fresh step outcomes; engine state, published events
and the call trace carry over). -/
def SpineEngineModel.runForwardState (em : SpineEngineModel) : PipelineState :=
  runPipeline em .FORWARD em.forthInjectors em.fixedPermits em.items.length
    { em.runBackwardState with outcomes := [] }

/-- The state at the end of `run()`: still-`RUNNING` becomes
`COMPLETED`. -/
def SpineEngineModel.runFinalState (em : SpineEngineModel) : PipelineState :=
  let st := em.runForwardState
  if st.engineState = .RUNNING then { st with engineState := .COMPLETED } else st

/-- Transitive dependency in an injector map: `DependsOn inj n d` holds when
`d` feeds `n` directly or through intermediate solids. -/
inductive DependsOn (inj : List (String × List String)) : String → String → Prop where
  | direct {n d : String} : d ∈ (alookup inj n).getD [] → DependsOn inj n d
  | trans {n m d : String} : m ∈ (alookup inj n).getD [] → DependsOn inj m d →
      DependsOn inj n d

/-! ### Concrete engines used as witnesses -/

/-- An item whose `old_execute` fails in the forward direction only. -/
def failingItem : ExecutableItem :=
  { name := "F", executeOk := fun d => decide (d = ExecutionDirection.BACKWARD),
    outputResources := fun _ => ["rF"] }

/-- An item whose `old_execute` always succeeds. -/
def loneItem : ExecutableItem :=
  { name := "I", executeOk := fun _ => true, outputResources := fun _ => ["rI"] }

/-- Two items with no connections at all: "F" fails forward, "I" is
entirely independent of it. -/
def twoItemEngine : SpineEngineModel :=
  { items := [failingItem, loneItem], successors := [], execution_permits := [] }

/-- `X -> Y` with the execution permit of "X" set to `False`. -/
def permitEngine : SpineEngineModel :=
  { items := [{ name := "X", executeOk := fun _ => true,
                outputResources := fun _ => ["rX"] },
              { name := "Y", executeOk := fun _ => true,
                outputResources := fun _ => ["rY"] }],
    successors := [("X", ["Y"])],
    execution_permits := [("X", false), ("Y", true)] }

/-- The linear DAG `A -> B -> C`. -/
def chainEngine : SpineEngineModel :=
  { items := [{ name := "A", executeOk := fun _ => true,
                outputResources := fun _ => ["rA"] },
              { name := "B", executeOk := fun _ => true,
                outputResources := fun _ => ["rB"] },
              { name := "C", executeOk := fun _ => true,
                outputResources := fun _ => ["rC"] }],
    successors := [("A", ["B"]), ("B", ["C"])],
    execution_permits := [] }

/-! ## Basic lemmas about association-list lookup -/

theorem alookup_cons {K V : Type} [DecidableEq K] (e : K × V) (l : List (K × V))
    (k : K) : alookup (e :: l) k = if e.1 = k then some e.2 else alookup l k := by
  by_cases h : e.1 = k <;> simp [alookup, List.find?_cons, h]

theorem alookup_append_of_some {K V : Type} [DecidableEq K] {l1 : List (K × V)}
    {k : K} {v : V} (l2 : List (K × V)) (h : alookup l1 k = some v) :
    alookup (l1 ++ l2) k = some v := by
  induction l1 with
  | nil => simp [alookup] at h
  | cons e t ih =>
      rw [List.cons_append, alookup_cons] at *
      by_cases he : e.1 = k <;> simp [he] at h ⊢ <;> simp_all

theorem alookup_append_of_none {K V : Type} [DecidableEq K] {l1 : List (K × V)}
    {k : K} (l2 : List (K × V)) (h : alookup l1 k = none) :
    alookup (l1 ++ l2) k = alookup l2 k := by
  induction l1 with
  | nil => simp
  | cons e t ih =>
      rw [List.cons_append, alookup_cons] at *
      by_cases he : e.1 = k <;> simp [he] at h ⊢ <;> simp_all

theorem alookup_eq_none_iff {K V : Type} [DecidableEq K] (l : List (K × V))
    (k : K) : alookup l k = none ↔ ∀ e ∈ l, e.1 ≠ k := by
  simp [alookup, List.find?_eq_none]

theorem mem_of_alookup_eq_some {K V : Type} [DecidableEq K] {l : List (K × V)}
    {k : K} {v : V} (h : alookup l k = some v) : (k, v) ∈ l := by
  induction l with
  | nil => simp [alookup] at h
  | cons e t ih =>
      obtain ⟨a, b⟩ := e
      rw [alookup_cons] at h
      by_cases he : a = k
      · subst he
        simp at h
        subst h
        exact List.mem_cons_self _ _
      · simp [he] at h
        exact .tail _ (ih h)

theorem alookup_filter_ne {K V : Type} [DecidableEq K]
    (l : List (K × V)) (k bad : K) (hk : k ≠ bad) :
    alookup (l.filter (fun e => decide (e.1 ≠ bad))) k = alookup l k := by
  induction l with
  | nil => simp
  | cons e t ih =>
      by_cases hb : e.1 = bad
      · have h1 : ¬e.1 = k := by rw [hb]; exact fun h => hk h.symm
        rw [List.filter_cons, if_neg (by simp [hb]), alookup_cons, if_neg h1]
        exact ih
      · rw [List.filter_cons, if_pos (by simp [hb]), alookup_cons, alookup_cons]
        by_cases h2 : e.1 = k
        · rw [if_pos h2, if_pos h2]
        · rw [if_neg h2, if_neg h2]
          exact ih

theorem alookup_filter_self {K V : Type} [DecidableEq K]
    (l : List (K × V)) (k : K) :
    alookup (l.filter (fun e => decide (e.1 ≠ k))) k = none := by
  rw [alookup_eq_none_iff]
  intro e he
  have := List.of_mem_filter he
  simpa using this

theorem filter_eq_self_of_alookup_none {K V : Type} [DecidableEq K]
    {l : List (K × V)} {k : K} (h : alookup l k = none) :
    l.filter (fun e => decide (e.1 ≠ k)) = l := by
  rw [alookup_eq_none_iff] at h
  exact List.filter_eq_self.mpr (fun e he => by simpa using h e he)

/-! ## Lemmas about metadata update -/

theorem updateMeta_nil (m : List (String × MetaValue)) : updateMeta m [] = m := rfl

theorem updateMeta_cons (m : List (String × MetaValue)) (k : String)
    (v : MetaValue) (rest : List (String × MetaValue)) :
    updateMeta m ((k, v) :: rest) = updateMeta (updateMeta m [(k, v)]) rest := by
  rw [updateMeta]
  by_cases h : (alookup m k).isSome <;> simp [updateMeta, h]

theorem alookup_map_set_same (m : List (String × MetaValue)) (k : String)
    (v : MetaValue) (h : (alookup m k).isSome) :
    alookup (m.map (fun e => if e.1 = k then (k, v) else e)) k = some v := by
  induction m with
  | nil => simp [alookup] at h
  | cons e t ih =>
      by_cases he : e.1 = k
      · simp [List.map_cons, he, alookup_cons]
      · rw [alookup_cons, if_neg he] at h
        simp [List.map_cons, he, alookup_cons, ih h]

theorem alookup_map_set_other (m : List (String × MetaValue)) (k k2 : String)
    (v : MetaValue) (hne : k2 ≠ k) :
    alookup (m.map (fun e => if e.1 = k then (k, v) else e)) k2 = alookup m k2 := by
  induction m with
  | nil => simp
  | cons e t ih =>
      rw [List.map_cons, alookup_cons, alookup_cons]
      by_cases he : e.1 = k
      · have hkk2 : ¬k = k2 := fun h => hne h.symm
        have hek2 : ¬e.1 = k2 := by rw [he]; exact hkk2
        rw [if_pos he, if_neg hkk2, if_neg hek2]
        exact ih
      · rw [if_neg he]
        by_cases h2 : e.1 = k2
        · rw [if_pos h2, if_pos h2]
        · rw [if_neg h2, if_neg h2]
          exact ih

theorem alookup_updateMeta_single (m : List (String × MetaValue)) (k k2 : String)
    (v : MetaValue) :
    alookup (updateMeta m [(k, v)]) k2 =
      if k2 = k then some v else alookup m k2 := by
  rw [updateMeta]
  by_cases h : (alookup m k).isSome
  · rw [if_pos h, updateMeta_nil]
    by_cases h2 : k2 = k
    · subst h2
      simp [alookup_map_set_same m k2 v h]
    · simp [h2, alookup_map_set_other m k k2 v h2]
  · rw [if_neg h, updateMeta_nil]
    rw [Option.not_isSome_iff_eq_none] at h
    by_cases h2 : k2 = k
    · subst h2
      rw [alookup_append_of_none _ h, if_pos rfl, alookup_cons]
      simp
    · rw [if_neg h2]
      cases hv : alookup m k2 with
      | some w => exact alookup_append_of_some _ hv
      | none =>
          rw [alookup_append_of_none _ hv, alookup_cons,
            if_neg (fun hh : k = k2 => h2 hh.symm)]
          simp [alookup]

theorem clone_type (r : ProjectItemResource) (a : List (String × MetaValue)) :
    (r.clone a).type_ = r.type_ := rfl

/-- `convert_backward_resources` as a single elementwise map. -/
theorem convert_backward_eq_map (c : Connection)
    (resources : List ProjectItemResource) (node_names : String × String)
    (sibling_connections : List ((String × String) × Connection)) :
    c.convert_backward_resources resources node_names sibling_connections =
      resources.map (fun r =>
        if r.type_ = "database" then
          let stamped := r.clone
            [("current", .currentV node_names),
             ("precursors", .precursorsV (sibling_connections.filterMap
               (fun e => if e.2.write_index < c.write_index then some e.1 else none))),
             ("part_count", .partCountV)]
          if c.use_memory_db then stamped.clone [("memory", .boolV true)] else stamped
        else r) := by
  unfold Connection.convert_backward_resources Connection._apply_write_index
    Connection._apply_use_memory_db
  by_cases hm : c.use_memory_db
  · simp only [hm, not_true_eq_false, if_false, List.map_map]
    apply List.map_congr_left
    intro r _
    by_cases ht : r.type_ = "database" <;>
      simp [Function.comp, ht, clone_type, hm]
  · simp only [hm, not_false_eq_true, if_true]
    apply List.map_congr_left
    intro r _
    by_cases ht : r.type_ = "database" <;> simp [ht, hm]

theorem alookup_stamp (m : List (String × MetaValue)) (cv pv pcv : MetaValue) :
    alookup (updateMeta m
        [("current", cv), ("precursors", pv), ("part_count", pcv)]) "current" = some cv
    ∧ alookup (updateMeta m
        [("current", cv), ("precursors", pv), ("part_count", pcv)]) "precursors" = some pv
    ∧ alookup (updateMeta m
        [("current", cv), ("precursors", pv), ("part_count", pcv)]) "part_count" = some pcv := by
  rw [updateMeta_cons, updateMeta_cons]
  refine ⟨?_, ?_, ?_⟩ <;>
    simp [alookup_updateMeta_single]

/-- **C9.** `convert_backward_resources` stamps every database resource —
and no other resource — with ordering metadata whose `precursors` are
exactly the sibling connections of strictly smaller write index, plus the
`current` node pair and a part counter; this holds for every value of the
`use_memory_db` option (the theorem quantifies over all connections), the
write index defaults to 1 when the option is unset, and non-database
resources come back unchanged (elementwise, in order). -/
theorem claim_C9 (c : Connection) (resources : List ProjectItemResource)
    (node_names : String × String)
    (sibling_connections : List ((String × String) × Connection)) :
    List.Forall₂ (fun r r2 =>
        (r.type_ ≠ "database" → r2 = r)
        ∧ (r.type_ = "database" →
            alookup r2.metadata "precursors" =
              some (.precursorsV (sibling_connections.filterMap
                (fun e => if e.2.write_index < c.write_index then some e.1 else none)))
            ∧ alookup r2.metadata "part_count" = some .partCountV
            ∧ alookup r2.metadata "current" = some (.currentV node_names)
            ∧ r2.type_ = r.type_ ∧ r2.label = r.label
            ∧ r2.provider_name = r.provider_name))
      resources (c.convert_backward_resources resources node_names sibling_connections)
    ∧ (∀ c2 : Connection, c2.options_write_index = none → c2.write_index = 1) := by
  constructor
  · rw [convert_backward_eq_map]
    induction resources with
    | nil => exact .nil
    | cons r t ih =>
        rw [List.map_cons]
        refine .cons ⟨?_, ?_⟩ ih
        · intro ht
          simp [ht]
        · intro ht
          rw [if_pos ht]
          by_cases hm : c.use_memory_db
          · rw [if_pos hm]
            obtain ⟨h1, h2, h3⟩ := alookup_stamp r.metadata
              (.currentV node_names)
              (.precursorsV (sibling_connections.filterMap
                (fun e => if e.2.write_index < c.write_index then some e.1 else none)))
              .partCountV
            refine ⟨?_, ?_, ?_, rfl, rfl, rfl⟩ <;>
              · show alookup (updateMeta _ [("memory", MetaValue.boolV true)]) _ = _
                rw [alookup_updateMeta_single]
                simp [ProjectItemResource.clone, h1, h2, h3]
          · rw [if_neg hm]
            obtain ⟨h1, h2, h3⟩ := alookup_stamp r.metadata
              (.currentV node_names)
              (.precursorsV (sibling_connections.filterMap
                (fun e => if e.2.write_index < c.write_index then some e.1 else none)))
              .partCountV
            exact ⟨h2, h3, h1, rfl, rfl, rfl⟩
  · intro c2 h
    simp [Connection.write_index, h]

/-- Witness for C9 at a concrete input: a database and a text resource
through a connection of write index 2, with one earlier and one later
sibling. -/
theorem claim_C9_witness :
    List.Forall₂ (fun r r2 =>
        (r.type_ ≠ "database" → r2 = r)
        ∧ (r.type_ = "database" →
            alookup r2.metadata "precursors" =
              some (.precursorsV ([((("x" : String), ("d" : String)),
                  ({ options_write_index := some 1 } : Connection)),
                ((("y", "d")), ({ options_write_index := some 5 } : Connection))].filterMap
                (fun e => if e.2.write_index <
                    ({ options_write_index := some 2 } : Connection).write_index
                  then some e.1 else none)))
            ∧ alookup r2.metadata "part_count" = some .partCountV
            ∧ alookup r2.metadata "current" = some (.currentV ("s", "d"))
            ∧ r2.type_ = r.type_ ∧ r2.label = r.label
            ∧ r2.provider_name = r.provider_name))
      [⟨"database", "db1", "s", []⟩, ⟨"file", "f1", "s", []⟩]
      (({ options_write_index := some 2 } : Connection).convert_backward_resources
        [⟨"database", "db1", "s", []⟩, ⟨"file", "f1", "s", []⟩] ("s", "d")
        [((("x" : String), ("d" : String)), { options_write_index := some 1 }),
         (("y", "d"), { options_write_index := some 5 })])
    ∧ (∀ c2 : Connection, c2.options_write_index = none → c2.write_index = 1) :=
  claim_C9 { options_write_index := some 2 }
    [⟨"database", "db1", "s", []⟩, ⟨"file", "f1", "s", []⟩] ("s", "d")
    [(("x", "d"), { options_write_index := some 1 }),
     (("y", "d"), { options_write_index := some 5 })]

/-! ## C1: `USER_STOPPED` is sticky -/

theorem processEvent_userStopped (em : SpineEngineModel) (dir : ExecutionDirection)
    (st : PipelineState) (ev : DagsterEvent)
    (h : st.engineState = .USER_STOPPED) :
    (processEvent em dir st ev).engineState = .USER_STOPPED := by
  cases ev with
  | mk t sid => cases t <;> simp [processEvent, h]

/-- **C1.** `stop()` sets the engine state to `USER_STOPPED` immediately,
and from `USER_STOPPED` no subsequent sequence of pipeline events —
in particular no step-failure event — ever moves the state (to `FAILED`
or anywhere else): the state observed after processing any later events is
still `USER_STOPPED`. -/
theorem claim_C1 :
    (∀ st : PipelineState, (stopEngine st).engineState = .USER_STOPPED)
    ∧ (∀ (em : SpineEngineModel) (dir : ExecutionDirection) (st : PipelineState)
        (evs : List DagsterEvent),
        (processEvents em dir (stopEngine st) evs).engineState = .USER_STOPPED) := by
  have key : ∀ (em : SpineEngineModel) (dir : ExecutionDirection)
      (evs : List DagsterEvent) (st : PipelineState),
      st.engineState = .USER_STOPPED →
      (processEvents em dir st evs).engineState = .USER_STOPPED := by
    intro em dir evs
    induction evs with
    | nil => intro st h; exact h
    | cons ev rest ih =>
        intro st h
        rw [processEvents, List.foldl_cons]
        exact ih _ (processEvent_userStopped em dir st ev h)
  exact ⟨fun st => rfl, fun em dir st evs => key em dir evs _ rfl⟩

/-! ## C10: `make_jump` on existing endpoints -/

/-- **C10.** When the jump list already holds a jump with the given source
and destination (any project whose endpoints exist), `make_jump` returns
that same existing `Jump` object and leaves the project — jump list
included — completely unchanged; no validation is consulted (the theorem
has no hypothesis about the jump's validity in the current topology). -/
theorem claim_C10 (p : Project) (s d : String) (payload : Nat) (j : Jump)
    (hs : p.hasNode s = true) (hd : p.hasNode d = true)
    (hj : p.get_jump s d = .ok j) :
    p.make_jump s d payload = (.ok j, p) := by
  rw [Project.make_jump, if_neg (by simp [hs, hd]), hj]

/-- Witness for C10: the existing jump `a → b` is a *forward* jump, hence
invalid under `_validate_jump`, yet `make_jump` returns it unchanged. -/
theorem claim_C10_witness :
    Project.make_jump ⟨["a", "b"], [(("a", "b"), {})], [⟨"a", "b", 5⟩]⟩ "a" "b" 9 =
      (.ok ⟨"a", "b", 5⟩, ⟨["a", "b"], [(("a", "b"), {})], [⟨"a", "b", 5⟩]⟩) :=
  claim_C10 ⟨["a", "b"], [(("a", "b"), {})], [⟨"a", "b", 5⟩]⟩ "a" "b" 9 ⟨"a", "b", 5⟩
    (by decide) (by decide) rfl

/-! ## C3: topology errors leave the graph in its pre-call state -/

theorem addNodeRaw_of_mem {p : Project} {n : String} (h : n ∈ p.nodes) :
    p.addNodeRaw n = p := by
  simp [Project.addNodeRaw, h]

theorem keyfst_replace (k : String × String) (c : Connection)
    (e : (String × String) × Connection) :
    ((if e.1 = k then (k, c) else e)).1 = e.1 := by
  by_cases h : e.1 = k <;> simp [h]

theorem edgeSuccessors_replace (l : List ((String × String) × Connection))
    (k : String × String) (c : Connection) (u : String) :
    edgeSuccessors (l.map (fun e => if e.1 = k then (k, c) else e)) u =
      edgeSuccessors l u := by
  unfold edgeSuccessors
  rw [List.filterMap_map]
  apply List.filterMap_congr
  intro e _
  show (if ((if e.1 = k then (k, c) else e)).1.1 = u then
      some ((if e.1 = k then (k, c) else e)).1.2 else none) = _
  rw [keyfst_replace]

theorem reachStep_congr {E1 E2 : List ((String × String) × Connection)}
    (h : edgeSuccessors E1 = edgeSuccessors E2) (acc : List String) :
    reachStep E1 acc = reachStep E2 acc := by
  unfold reachStep
  rw [h]

theorem reachAux_congr {E1 E2 : List ((String × String) × Connection)}
    (h : edgeSuccessors E1 = edgeSuccessors E2) (fuel : Nat) (acc : List String) :
    reachAux E1 fuel acc = reachAux E2 fuel acc := by
  induction fuel generalizing acc with
  | zero => rfl
  | succ n ih =>
      rw [reachAux, reachAux, reachStep_congr h, ih]

theorem list_any_congr {α : Type} {l : List α} {p q : α → Bool}
    (h : ∀ a ∈ l, p a = q a) : l.any p = l.any q := by
  induction l with
  | nil => rfl
  | cons a t ih =>
      rw [List.any_cons, List.any_cons, h a (List.mem_cons_self a t),
        ih (fun b hb => h b (List.mem_cons_of_mem a hb))]

/-- `is_directed_acyclic_graph` only inspects edge keys, so overwriting the
attributes of an existing edge (the replace branch of `addEdgeRaw`) does
not change it. -/
theorem is_dag_replace (p : Project) (k : String × String) (c : Connection) :
    ({ p with edges := p.edges.map (fun e => if e.1 = k then (k, c) else e) }
        : Project).is_directed_acyclic_graph = p.is_directed_acyclic_graph := by
  have hsucc : edgeSuccessors (p.edges.map (fun e => if e.1 = k then (k, c) else e)) =
      edgeSuccessors p.edges := funext (edgeSuccessors_replace p.edges k c)
  unfold Project.is_directed_acyclic_graph Project.hasPath Project.reachableFrom
  simp only [List.any_map, List.length_map]
  have hany := list_any_congr (l := p.edges)
    (p := (fun e : (String × String) × Connection =>
        decide (e.1.1 ∈ reachAux
          (p.edges.map (fun e2 => if e2.1 = k then (k, c) else e2))
          (p.edges.length + 1) [e.1.2])) ∘ (fun e => if e.1 = k then (k, c) else e))
    (q := fun e => decide (e.1.1 ∈ reachAux p.edges (p.edges.length + 1) [e.1.2]))
    (fun e _ => by
      simp only [Function.comp_apply]
      rw [keyfst_replace, reachAux_congr hsucc])
  simp only [hany]

theorem hasNode_iff (p : Project) (n : String) :
    p.hasNode n = true ↔ n ∈ p.nodes := by
  simp [Project.hasNode]

/-- A cycle can only appear when the added edge key was new: overwriting an
existing edge's attributes leaves acyclicity intact. -/
theorem add_cycle_lookup_none {p : Project} {s d : String} {c : Connection}
    (hdag : p.is_directed_acyclic_graph = true)
    (hs : s ∈ p.nodes) (hd : d ∈ p.nodes)
    (hcyc : ¬(p.addEdgeRaw s d c).is_directed_acyclic_graph = true) :
    alookup p.edges (s, d) = none := by
  cases hv : alookup p.edges (s, d) with
  | none => rfl
  | some v =>
      exfalso
      apply hcyc
      rw [Project.addEdgeRaw, addNodeRaw_of_mem hs, addNodeRaw_of_mem hd,
        if_pos (by simp [hv])]
      rw [is_dag_replace]
      exact hdag

/-- Adding a fresh edge and removing it again restores the project
exactly. -/
theorem addRaw_removeRaw {p : Project} {s d : String} {c : Connection}
    (hs : s ∈ p.nodes) (hd : d ∈ p.nodes)
    (hnone : alookup p.edges (s, d) = none) :
    (p.addEdgeRaw s d c).removeEdgeRaw s d = p := by
  rw [Project.addEdgeRaw, addNodeRaw_of_mem hs, addNodeRaw_of_mem hd,
    if_neg (by simp [hnone])]
  rw [Project.removeEdgeRaw]
  have hE : (p.edges ++ [((s, d), c)]).filter (fun e => decide (e.1 ≠ (s, d))) = p.edges := by
    rw [List.filter_append, filter_eq_self_of_alookup_none hnone]
    simp
  simp only [hE]

/-- Removing an existing edge and re-adding it with its attributes restores
the node list, every edge lookup and the jump list. -/
theorem rollback_readd {p : Project} {s d : String} {c0 : Connection}
    (hsome : alookup p.edges (s, d) = some c0) (hs : s ∈ p.nodes) (hd : d ∈ p.nodes) :
    ((p.removeEdgeRaw s d).addEdgeRaw s d c0).nodes = p.nodes
    ∧ (∀ a b, ((p.removeEdgeRaw s d).addEdgeRaw s d c0).getConnection a b =
        p.getConnection a b)
    ∧ ((p.removeEdgeRaw s d).addEdgeRaw s d c0).jumps = p.jumps := by
  have hfilter : alookup ((p.removeEdgeRaw s d).edges) (s, d) = none :=
    alookup_filter_self p.edges (s, d)
  have hnodes : (p.removeEdgeRaw s d).nodes = p.nodes := rfl
  rw [Project.addEdgeRaw]
  rw [show (p.removeEdgeRaw s d).addNodeRaw s = p.removeEdgeRaw s d from
    addNodeRaw_of_mem (by rw [hnodes]; exact hs)]
  rw [show (p.removeEdgeRaw s d).addNodeRaw d = p.removeEdgeRaw s d from
    addNodeRaw_of_mem (by rw [hnodes]; exact hd)]
  rw [if_neg (by simp [hfilter])]
  refine ⟨rfl, ?_, rfl⟩
  intro a b
  show alookup ((p.removeEdgeRaw s d).edges ++ [((s, d), c0)]) (a, b) =
    alookup p.edges (a, b)
  by_cases hab : (a, b) = (s, d)
  · rw [hab, alookup_append_of_none _ hfilter, alookup_cons, if_pos rfl, hsome]
  · cases hv : alookup ((p.removeEdgeRaw s d).edges) (a, b) with
    | some v =>
        rw [alookup_append_of_some _ hv]
        rw [show alookup ((p.removeEdgeRaw s d).edges) (a, b) =
          alookup p.edges (a, b) from alookup_filter_ne p.edges (a, b) (s, d) hab] at hv
        exact hv.symm
    | none =>
        rw [alookup_append_of_none _ hv, alookup_cons,
          if_neg (fun h : (s, d) = (a, b) => hab h.symm)]
        rw [show alookup ((p.removeEdgeRaw s d).edges) (a, b) =
          alookup p.edges (a, b) from alookup_filter_ne p.edges (a, b) (s, d) hab] at hv
        rw [hv]
        rfl

/-- **C3.** Every graph-mutating call that raises a topology error leaves
the project in its pre-call state: `add_edge` raises
`ProjectComponentNotFound` for a missing endpoint, `InvalidConnection` for
a self-loop and `InvalidConnection` for a cycle-creating edge, in each case
with node list, edges and jump list unchanged (for the cycle case the
partially-added edge is rolled back exactly); a raising `remove_edge`
(missing edge, or removal would invalidate a jump) likewise leaves node
list, every edge lookup and the jump list unchanged. -/
theorem claim_C3 (p : Project) (s d : String) (c : Connection)
    (hdag : p.is_directed_acyclic_graph = true)
    (hwf : ∀ e ∈ p.edges, e.1.1 ∈ p.nodes ∧ e.1.2 ∈ p.nodes) :
    ((¬p.hasNode s = true ∨ ¬p.hasNode d = true) →
        p.add_edge s d c = (.error .componentNotFound, p))
    ∧ (p.hasNode s = true → p.hasNode d = true → s = d →
        p.add_edge s d c = (.error .invalidConnection, p))
    ∧ (p.hasNode s = true → p.hasNode d = true → s ≠ d →
        ¬(p.addEdgeRaw s d c).is_directed_acyclic_graph = true →
        p.add_edge s d c = (.error .invalidConnection, p))
    ∧ (∀ err, (p.add_edge s d c).1 = .error err → (p.add_edge s d c).2 = p)
    ∧ (p.getConnection s d = none →
        p.remove_edge s d = (.error .componentNotFound, p))
    ∧ (∀ err, (p.remove_edge s d).1 = .error err →
        (p.remove_edge s d).2.nodes = p.nodes
        ∧ (∀ a b, (p.remove_edge s d).2.getConnection a b = p.getConnection a b)
        ∧ (p.remove_edge s d).2.jumps = p.jumps) := by
  refine ⟨?_, ?_, ?_, ?_, ?_, ?_⟩
  · intro h1
    rw [Project.add_edge, if_pos h1]
  · intro hs hd hsd
    rw [Project.add_edge, if_neg (by simp [hs, hd]), if_pos hsd]
  · intro hs hd hsd hcyc
    rw [Project.add_edge, if_neg (by simp [hs, hd]), if_neg hsd, if_pos hcyc]
    have hs2 : s ∈ p.nodes := (hasNode_iff p s).mp hs
    have hd2 : d ∈ p.nodes := (hasNode_iff p d).mp hd
    rw [addRaw_removeRaw hs2 hd2 (add_cycle_lookup_none hdag hs2 hd2 hcyc)]
  · intro err herr
    by_cases h1 : (¬p.hasNode s = true ∨ ¬p.hasNode d = true)
    · rw [Project.add_edge, if_pos h1]
    · push_neg at h1
      obtain ⟨hs, hd⟩ := h1
      have h1 : ¬(¬p.hasNode s = true ∨ ¬p.hasNode d = true) := by simp [hs, hd]
      by_cases h2 : s = d
      · rw [Project.add_edge, if_neg h1, if_pos h2]
      · rw [Project.add_edge, if_neg h1, if_neg h2] at herr ⊢
        by_cases h3 : ¬(p.addEdgeRaw s d c).is_directed_acyclic_graph = true
        · rw [if_pos h3]
          have hs2 : s ∈ p.nodes := (hasNode_iff p s).mp hs
          have hd2 : d ∈ p.nodes := (hasNode_iff p d).mp hd
          exact addRaw_removeRaw hs2 hd2 (add_cycle_lookup_none hdag hs2 hd2 h3)
        · rw [if_neg h3] at herr
          exact absurd herr (by simp)
  · intro hno
    have hno2 : alookup p.edges (s, d) = none := hno
    by_cases hj : p.jumps = []
    · rw [Project.remove_edge, if_pos hj, if_neg (by simp [hno2])]
    · rw [Project.remove_edge, if_neg hj]
      simp only [hno2]
  · intro err herr
    by_cases hj : p.jumps = []
    · rw [Project.remove_edge, if_pos hj] at herr ⊢
      by_cases hv : (alookup p.edges (s, d)).isSome
      · rw [if_pos hv] at herr
        exact absurd herr (by simp)
      · rw [if_neg hv]
        simp
    · rw [Project.remove_edge, if_neg hj] at herr ⊢
      cases hv : alookup p.edges (s, d) with
      | none =>
          simp only [hv]
          simp
      | some c0 =>
          simp only [hv] at herr ⊢
          cases hf : firstInvalidJump (p.removeEdgeRaw s d)
              ((p.removeEdgeRaw s d)._get_nodes_by_jump)
              ((p.removeEdgeRaw s d).jumps) with
          | none =>
              simp only [hf] at herr
              exact absurd herr (by simp)
          | some jj =>
              simp only [hf]
              have hmem := mem_of_alookup_eq_some hv
              obtain ⟨hs2, hd2⟩ := hwf _ hmem
              exact rollback_readd hv hs2 hd2

/-- Witness for C3: a two-node chain where adding the reverse edge would
close a cycle, adding an edge to a missing node, a self-loop, and removing
a missing edge. -/
theorem claim_C3_witness :
    ((¬(Project.hasNode ⟨["a", "b"], [(("a", "b"), {})], []⟩ "b") = true
        ∨ ¬(Project.hasNode ⟨["a", "b"], [(("a", "b"), {})], []⟩ "a") = true) →
      Project.add_edge ⟨["a", "b"], [(("a", "b"), {})], []⟩ "b" "a" {} =
        (.error .componentNotFound, ⟨["a", "b"], [(("a", "b"), {})], []⟩))
    ∧ ((Project.hasNode ⟨["a", "b"], [(("a", "b"), {})], []⟩ "b") = true →
        (Project.hasNode ⟨["a", "b"], [(("a", "b"), {})], []⟩ "a") = true → "b" = "a" →
      Project.add_edge ⟨["a", "b"], [(("a", "b"), {})], []⟩ "b" "a" {} =
        (.error .invalidConnection, ⟨["a", "b"], [(("a", "b"), {})], []⟩))
    ∧ ((Project.hasNode ⟨["a", "b"], [(("a", "b"), {})], []⟩ "b") = true →
        (Project.hasNode ⟨["a", "b"], [(("a", "b"), {})], []⟩ "a") = true → "b" ≠ "a" →
        ¬(Project.addEdgeRaw ⟨["a", "b"], [(("a", "b"), {})], []⟩ "b" "a"
            {}).is_directed_acyclic_graph = true →
      Project.add_edge ⟨["a", "b"], [(("a", "b"), {})], []⟩ "b" "a" {} =
        (.error .invalidConnection, ⟨["a", "b"], [(("a", "b"), {})], []⟩))
    ∧ (∀ err, (Project.add_edge ⟨["a", "b"], [(("a", "b"), {})], []⟩ "b" "a" {}).1 = .error err →
        (Project.add_edge ⟨["a", "b"], [(("a", "b"), {})], []⟩ "b" "a" {}).2 =
          ⟨["a", "b"], [(("a", "b"), {})], []⟩)
    ∧ (Project.getConnection ⟨["a", "b"], [(("a", "b"), {})], []⟩ "b" "a" = none →
        Project.remove_edge ⟨["a", "b"], [(("a", "b"), {})], []⟩ "b" "a" =
          (.error .componentNotFound, ⟨["a", "b"], [(("a", "b"), {})], []⟩))
    ∧ (∀ err, (Project.remove_edge ⟨["a", "b"], [(("a", "b"), {})], []⟩ "b" "a").1 = .error err →
        (Project.remove_edge ⟨["a", "b"], [(("a", "b"), {})], []⟩ "b" "a").2.nodes =
          (⟨["a", "b"], [(("a", "b"), {})], []⟩ : Project).nodes
        ∧ (∀ a b, (Project.remove_edge ⟨["a", "b"], [(("a", "b"), {})], []⟩ "b" "a").2.getConnection a b =
            Project.getConnection ⟨["a", "b"], [(("a", "b"), {})], []⟩ a b)
        ∧ (Project.remove_edge ⟨["a", "b"], [(("a", "b"), {})], []⟩ "b" "a").2.jumps =
          (⟨["a", "b"], [(("a", "b"), {})], []⟩ : Project).jumps) :=
  claim_C3 ⟨["a", "b"], [(("a", "b"), {})], []⟩ "b" "a" {} (by decide)
    (by decide)

/-! ## C4: `make_jump` acceptance characterization -/

theorem alookup_map_keyfun (F : String → String → List String) :
    ∀ (l : List Jump) (a b : String),
      (∃ jj ∈ l, jj.source = a ∧ jj.destination = b) →
      alookup (l.map (fun j => ((j.source, j.destination), F j.source j.destination)))
        (a, b) = some (F a b) := by
  intro l
  induction l with
  | nil => intro a b h; simp at h
  | cons j0 t ih =>
      intro a b h
      rw [List.map_cons, alookup_cons]
      by_cases hk : (j0.source, j0.destination) = (a, b)
      · have h1 : j0.source = a := congrArg Prod.fst hk
        have h2 : j0.destination = b := congrArg Prod.snd hk
        rw [if_pos hk, h1, h2]
      · rw [if_neg hk]
        apply ih
        obtain ⟨jj, hmem, hab⟩ := h
        rcases List.mem_cons.mp hmem with h0 | h0
        · exfalso
          apply hk
          rw [← h0]
          simp [hab.1, hab.2]
        · exact ⟨jj, h0, hab⟩

theorem get_nodes_by_jump_lookup (p : Project) (a b : String)
    (h : ∃ jj ∈ p.jumps, jj.source = a ∧ jj.destination = b) :
    alookup p._get_nodes_by_jump (a, b) = some (p.nodesOnSimplePaths b a) :=
  alookup_map_keyfun (fun x y => p.nodesOnSimplePaths y x) p.jumps a b h

theorem validateJumpOthers_ok_iff (ibj : List ((String × String) × List String))
    (j : Jump) (others : List Jump) :
    validateJumpOthers ibj j others = .ok () ↔
      ∀ other ∈ others, other ≠ j →
        other.source ≠ j.source ∧
        (nodeSetEq (((alookup ibj (j.source, j.destination)).getD []).filter
            (fun x => decide (x ∈ (alookup ibj (other.source, other.destination)).getD [])))
            []
          || nodeSetEq (((alookup ibj (j.source, j.destination)).getD []).filter
            (fun x => decide (x ∈ (alookup ibj (other.source, other.destination)).getD [])))
            ((alookup ibj (j.source, j.destination)).getD [])
          || nodeSetEq (((alookup ibj (j.source, j.destination)).getD []).filter
            (fun x => decide (x ∈ (alookup ibj (other.source, other.destination)).getD [])))
            ((alookup ibj (other.source, other.destination)).getD [])) = true := by
  induction others with
  | nil => simp [validateJumpOthers]
  | cons o rest ih =>
      rw [validateJumpOthers]
      by_cases ho : o = j
      · rw [if_pos ho, ih]
        constructor
        · intro h other hmem hne
          rcases List.mem_cons.mp hmem with h0 | h0
          · exact absurd (h0.trans ho) hne
          · exact h other h0 hne
        · intro h other hmem hne
          exact h other (List.mem_cons_of_mem o hmem) hne
      · rw [if_neg ho]
        by_cases hsrc : o.source = j.source
        · rw [if_pos hsrc]
          constructor
          · intro h; exact absurd h (by simp)
          · intro h
            exact absurd hsrc (h o (List.mem_cons_self o rest) ho).1
        · rw [if_neg hsrc]
          by_cases hov : (nodeSetEq (((alookup ibj (j.source, j.destination)).getD []).filter
              (fun x => decide (x ∈ (alookup ibj (o.source, o.destination)).getD []))) []
            || nodeSetEq (((alookup ibj (j.source, j.destination)).getD []).filter
              (fun x => decide (x ∈ (alookup ibj (o.source, o.destination)).getD [])))
              ((alookup ibj (j.source, j.destination)).getD [])
            || nodeSetEq (((alookup ibj (j.source, j.destination)).getD []).filter
              (fun x => decide (x ∈ (alookup ibj (o.source, o.destination)).getD [])))
              ((alookup ibj (o.source, o.destination)).getD [])) = true
          · rw [if_pos hov, ih]
            constructor
            · intro h other hmem hne
              rcases List.mem_cons.mp hmem with h0 | h0
              · subst h0
                exact ⟨hsrc, hov⟩
              · exact h other h0 hne
            · intro h other hmem hne
              exact h other (List.mem_cons_of_mem o hmem) hne
          · rw [if_neg hov]
            constructor
            · intro h; exact absurd h (by simp)
            · intro h
              exact absurd (h o (List.mem_cons_self o rest) ho).2 hov

theorem validateJumpOthers_ok_or_invalid (ibj : List ((String × String) × List String))
    (j : Jump) (others : List Jump) :
    validateJumpOthers ibj j others = .ok ()
    ∨ validateJumpOthers ibj j others = .error .invalidJump := by
  induction others with
  | nil => left; rfl
  | cons o rest ih =>
      simp only [validateJumpOthers]
      split
      · exact ih
      · split
        · right; rfl
        · split
          · exact ih
          · right; rfl

theorem validate_jump_unfold (p : Project) (j : Jump)
    (ibj : List ((String × String) × List String)) :
    p._validate_jump j ibj =
      match validateJumpOthers ibj j p.jumps with
      | .error e => .error e
      | .ok () =>
          if ¬p.hasNode j.destination then .error .invalidJump
          else if ¬p.hasNode j.source then .error .invalidJump
          else if j.source = j.destination then .ok ()
          else if p.hasPath j.source j.destination then .error .invalidJump
          else if ¬p.reverseView.hasPath j.source j.destination then .error .invalidJump
          else .ok () := rfl

theorem validate_jump_ok_iff (p : Project) (j : Jump)
    (ibj : List ((String × String) × List String)) :
    p._validate_jump j ibj = .ok () ↔
      validateJumpOthers ibj j p.jumps = .ok ()
      ∧ p.hasNode j.destination = true ∧ p.hasNode j.source = true
      ∧ (j.source = j.destination
        ∨ (¬p.hasPath j.source j.destination = true
            ∧ p.reverseView.hasPath j.source j.destination = true)) := by
  rw [validate_jump_unfold]
  rcases validateJumpOthers_ok_or_invalid ibj j p.jumps with h | h <;> rw [h]
  · simp only [true_and, h]
    by_cases h1 : p.hasNode j.destination = true
    · by_cases h2 : p.hasNode j.source = true
      · rw [if_neg (by simp [h1]), if_neg (by simp [h2])]
        by_cases h3 : j.source = j.destination
        · simp [h3, h1, h2]
        · rw [if_neg h3]
          by_cases h4 : p.hasPath j.source j.destination = true
          · simp [h4, h3]
          · rw [if_neg h4]
            by_cases h5 : p.reverseView.hasPath j.source j.destination = true
            · rw [if_neg (by simp [h5])]
              simp [h5, h1, h2, h4]
            · rw [if_pos (by simp [h5])]
              simp [h5, h3, h4]
      · rw [if_neg (by simp [h1]), if_pos (by simp [h2])]
        simp [h2]
    · rw [if_pos (by simp [h1])]
      simp [h1]
  · simp [h]

theorem validate_jump_ok_or_invalid (p : Project) (j : Jump)
    (ibj : List ((String × String) × List String)) :
    p._validate_jump j ibj = .ok () ∨ p._validate_jump j ibj = .error .invalidJump := by
  rcases validateJumpOthers_ok_or_invalid ibj j p.jumps with h | h
  · rw [validate_jump_unfold, h]
    by_cases h1 : ¬p.hasNode j.destination = true
    · right; simp [h1]
    · by_cases h2 : ¬p.hasNode j.source = true
      · right; simp [h1, h2]
      · by_cases h3 : j.source = j.destination
        · left; simp [h1, h2, h3]
        · by_cases h4 : p.hasPath j.source j.destination = true
          · right; simp [h1, h2, h3, h4]
          · by_cases h5 : ¬p.reverseView.hasPath j.source j.destination = true
            · right; simp [h1, h2, h3, h4, h5]
            · left; simp [h1, h2, h3, h4, h5]
  · rw [validate_jump_unfold, h]
    right; rfl

theorem nodeSetEq_filter_nil_iff (a b : List String) :
    nodeSetEq (a.filter (fun x => decide (x ∈ b))) [] = true ↔ ∀ x ∈ a, x ∉ b := by
  simp [nodeSetEq, List.mem_filter]

theorem nodeSetEq_filter_left_iff (a b : List String) :
    nodeSetEq (a.filter (fun x => decide (x ∈ b))) a = true ↔ ∀ x ∈ a, x ∈ b := by
  simp only [nodeSetEq, Bool.and_eq_true, List.all_eq_true, List.mem_filter,
    decide_eq_true_eq]
  constructor
  · intro h x hx
    exact ((h.2 x hx).2)
  · intro h
    exact ⟨fun x hx => hx.1, fun x hx => ⟨hx, h x hx⟩⟩

theorem nodeSetEq_filter_right_iff (a b : List String) :
    nodeSetEq (a.filter (fun x => decide (x ∈ b))) b = true ↔ ∀ x ∈ b, x ∈ a := by
  simp only [nodeSetEq, Bool.and_eq_true, List.all_eq_true, List.mem_filter,
    decide_eq_true_eq]
  constructor
  · intro h x hx
    exact ((h.2 x hx).1)
  · intro h
    exact ⟨fun x hx => hx.2, fun x hx => ⟨h x hx, hx⟩⟩

theorem overlap_bool_iff (je oe : List String) :
    (nodeSetEq (je.filter (fun x => decide (x ∈ oe))) []
      || nodeSetEq (je.filter (fun x => decide (x ∈ oe))) je
      || nodeSetEq (je.filter (fun x => decide (x ∈ oe))) oe) = true
    ↔ ((∀ x ∈ je, x ∉ oe) ∨ (∀ x ∈ je, x ∈ oe) ∨ (∀ x ∈ oe, x ∈ je)) := by
  simp only [Bool.or_eq_true, nodeSetEq_filter_nil_iff, nodeSetEq_filter_left_iff,
    nodeSetEq_filter_right_iff]
  exact or_assoc

/-- **C4.** For a candidate jump with both endpoints present and no
existing jump on the same endpoint pair, `make_jump` accepts iff: no other
jump has the same source; the enclosed node set is disjoint from, a subset
of, or a superset of every other jump's enclosed set; and the jump is a
self-jump, or has no forward path but a reverse-direction path from source
to destination.  Otherwise `InvalidJump` is raised (and the jump list is
restored). -/
theorem claim_C4 (p : Project) (s d : String) (payload : Nat)
    (hs : p.hasNode s = true) (hd : p.hasNode d = true)
    (hnew : ∀ jj ∈ p.jumps, ¬(jj.source = s ∧ jj.destination = d)) :
    ((p.make_jump s d payload).1.toBool = true ↔ jumpAcceptableSpec p s d)
    ∧ (¬jumpAcceptableSpec p s d →
        p.make_jump s d payload = (.error .invalidJump, p)) := by
  have hget : p.get_jump s d = .error .componentNotFound := by
    have hfind : p.jumps.find?
        (fun jj => decide (jj.source = s ∧ jj.destination = d)) = none := by
      rw [List.find?_eq_none]
      intro jj hjj
      simpa using hnew jj hjj
    rw [Project.get_jump, hfind]
  have hmj : p.make_jump s d payload =
      match Project._validate_jump
          { p with jumps := p.jumps ++ [⟨s, d, payload⟩] } ⟨s, d, payload⟩
          (Project._get_nodes_by_jump
            { p with jumps := p.jumps ++ [⟨s, d, payload⟩] }) with
      | .ok () => (.ok ⟨s, d, payload⟩, { p with jumps := p.jumps ++ [⟨s, d, payload⟩] })
      | .error e => (.error e, p) := by
    rw [Project.make_jump, if_neg (by simp [hs, hd]), hget]
  have hne_j : ∀ o ∈ p.jumps, o ≠ (⟨s, d, payload⟩ : Jump) := by
    intro o ho heq
    exact hnew o ho (by rw [heq]; exact ⟨rfl, rfl⟩)
  have hlookupj : alookup (Project._get_nodes_by_jump
      { p with jumps := p.jumps ++ [⟨s, d, payload⟩] }) (s, d) =
      some (p.nodesOnSimplePaths d s) :=
    get_nodes_by_jump_lookup { p with jumps := p.jumps ++ [⟨s, d, payload⟩] } s d
      ⟨⟨s, d, payload⟩, List.mem_append_right _ (List.mem_singleton.mpr rfl), rfl, rfl⟩
  have hlookupo : ∀ o ∈ p.jumps, alookup (Project._get_nodes_by_jump
      { p with jumps := p.jumps ++ [⟨s, d, payload⟩] }) (o.source, o.destination) =
      some (p.nodesOnSimplePaths o.destination o.source) := fun o ho =>
    get_nodes_by_jump_lookup { p with jumps := p.jumps ++ [⟨s, d, payload⟩] }
      o.source o.destination ⟨o, List.mem_append_left _ ho, rfl, rfl⟩
  have hA : validateJumpOthers (Project._get_nodes_by_jump
        { p with jumps := p.jumps ++ [⟨s, d, payload⟩] }) ⟨s, d, payload⟩
        (p.jumps ++ [⟨s, d, payload⟩]) = .ok () ↔
      ((∀ other ∈ p.jumps, other.source ≠ s)
        ∧ (∀ other ∈ p.jumps,
            (∀ x ∈ p.nodesOnSimplePaths d s,
              x ∉ p.nodesOnSimplePaths other.destination other.source)
            ∨ (∀ x ∈ p.nodesOnSimplePaths d s,
              x ∈ p.nodesOnSimplePaths other.destination other.source)
            ∨ (∀ x ∈ p.nodesOnSimplePaths other.destination other.source,
              x ∈ p.nodesOnSimplePaths d s))) := by
    rw [validateJumpOthers_ok_iff]
    constructor
    · intro h
      constructor
      · intro o ho
        exact (h o (List.mem_append_left _ ho) (hne_j o ho)).1
      · intro o ho
        have h2 := (h o (List.mem_append_left _ ho) (hne_j o ho)).2
        rw [hlookupj, hlookupo o ho] at h2
        simp only [Option.getD_some] at h2
        exact (overlap_bool_iff _ _).mp h2
    · intro h o ho hne
      rcases List.mem_append.mp ho with h0 | h0
      · refine ⟨h.1 o h0, ?_⟩
        rw [hlookupj, hlookupo o h0]
        simp only [Option.getD_some]
        exact (overlap_bool_iff _ _).mpr (h.2 o h0)
      · exact absurd (List.mem_singleton.mp h0) hne
  have hvalid : Project._validate_jump
      { p with jumps := p.jumps ++ [⟨s, d, payload⟩] } ⟨s, d, payload⟩
      (Project._get_nodes_by_jump { p with jumps := p.jumps ++ [⟨s, d, payload⟩] }) =
      .ok () ↔ jumpAcceptableSpec p s d := by
    rw [validate_jump_ok_iff, hA]
    unfold jumpAcceptableSpec
    constructor
    · rintro ⟨⟨a1, a2⟩, _, _, hD⟩
      exact ⟨a1, a2, hD⟩
    · rintro ⟨a1, a2, hD⟩
      exact ⟨⟨a1, a2⟩, hd, hs, hD⟩
  constructor
  · rw [hmj]
    rcases validate_jump_ok_or_invalid
        { p with jumps := p.jumps ++ [⟨s, d, payload⟩] } ⟨s, d, payload⟩
        (Project._get_nodes_by_jump { p with jumps := p.jumps ++ [⟨s, d, payload⟩] })
      with hv | hv <;> rw [hv]
    · constructor
      · intro _
        exact hvalid.mp hv
      · intro _
        rfl
    · constructor
      · intro h
        simp [Except.toBool] at h
      · intro h2
        exact absurd (hvalid.mpr h2) (by rw [hv]; simp)
  · intro hnot
    rw [hmj]
    rcases validate_jump_ok_or_invalid
        { p with jumps := p.jumps ++ [⟨s, d, payload⟩] } ⟨s, d, payload⟩
        (Project._get_nodes_by_jump { p with jumps := p.jumps ++ [⟨s, d, payload⟩] })
      with hv | hv <;> rw [hv]
    exact absurd (hvalid.mp hv) hnot

/-- Witness for C4: a two-node chain `a → b`; the jump `b → a` is accepted
(the iff's right side holds), while the forward jump would not be. -/
theorem claim_C4_witness :
    ((Project.make_jump ⟨["a", "b"], [(("a", "b"), {})], []⟩ "b" "a" 3).1.toBool = true
      ↔ jumpAcceptableSpec ⟨["a", "b"], [(("a", "b"), {})], []⟩ "b" "a")
    ∧ (¬jumpAcceptableSpec ⟨["a", "b"], [(("a", "b"), {})], []⟩ "b" "a" →
        Project.make_jump ⟨["a", "b"], [(("a", "b"), {})], []⟩ "b" "a" 3 =
          (.error .invalidJump, ⟨["a", "b"], [(("a", "b"), {})], []⟩)) :=
  claim_C4 ⟨["a", "b"], [(("a", "b"), {})], []⟩ "b" "a" 3 (by decide) (by decide)
    (by decide)

/-! ## C5: `remove_node` cascading jump removal -/

theorem alookup_filter_keep {K V : Type} [DecidableEq K] {l : List (K × V)}
    {q : K × V → Bool} {k : K} (h : ∀ e ∈ l, e.1 = k → q e = true) :
    alookup (l.filter q) k = alookup l k := by
  induction l with
  | nil => simp
  | cons e t ih =>
      have ih2 := ih (fun e2 he2 => h e2 (List.mem_cons_of_mem e he2))
      by_cases hk : e.1 = k
      · rw [List.filter_cons, if_pos (h e (List.mem_cons_self e t) hk),
          alookup_cons, alookup_cons, if_pos hk, if_pos hk]
      · rw [List.filter_cons]
        by_cases hq : q e = true
        · rw [if_pos hq, alookup_cons, alookup_cons, if_neg hk, if_neg hk]
          exact ih2
        · rw [if_neg hq, alookup_cons, if_neg hk]
          exact ih2

theorem except_unit_toBool_iff (x : Except ProjectError Unit) :
    x.toBool = true ↔ x = .ok () := by
  cases x with
  | ok a => cases a; simp [Except.toBool]
  | error e => simp [Except.toBool]

theorem remove_node_unfold (p : Project) (name : String)
    (hn : p.hasNode name = true) :
    p.remove_node name =
      (if (p.removeNodeRaw name).jumps = [] then (.ok (), p.removeNodeRaw name)
       else if (p.removeNodeRaw name).jumps.filter
            (fun j => decide (j.source ≠ name ∧ j.destination ≠ name)) = [] then
          (.ok (), { p.removeNodeRaw name with jumps := [] })
       else
          (.ok (), { p.removeNodeRaw name with jumps := p.removedValidJumps name })) := by
  rw [Project.remove_node, if_neg (by simp [hn])]
  rfl

/-- `validateJumpOthers` is anti-monotone in the list of other jumps: if
validation passes against a list, it passes against any subcollection. -/
theorem validateJumpOthers_ok_of_subset (ibj : List ((String × String) × List String))
    (j : Jump) {l1 l2 : List Jump} (hsub : ∀ o ∈ l1, o ∈ l2)
    (h : validateJumpOthers ibj j l2 = .ok ()) :
    validateJumpOthers ibj j l1 = .ok () := by
  rw [validateJumpOthers_ok_iff] at h ⊢
  intro o ho hne
  exact h o (hsub o ho) hne

/-- **C5.** For a present node, `remove_node` succeeds and: removes the
node and every incident edge (non-incident edges are untouched), drops
every jump touching the removed node, keeps a remaining jump exactly when
it is still valid in the reduced graph (validated, as the code does, with
the pre-removal jump list as context), and every jump remaining after the
call is valid in the resulting project. -/
theorem claim_C5 (p : Project) (name : String) (hn : p.hasNode name = true) :
    (p.remove_node name).1 = .ok ()
    ∧ (p.remove_node name).2.nodes = p.nodes.filter (fun m => decide (m ≠ name))
    ∧ (∀ s d, (s = name ∨ d = name) → (p.remove_node name).2.getConnection s d = none)
    ∧ (∀ s d, s ≠ name → d ≠ name →
        (p.remove_node name).2.getConnection s d = p.getConnection s d)
    ∧ (∀ j ∈ (p.remove_node name).2.jumps, j.source ≠ name ∧ j.destination ≠ name)
    ∧ (∀ j ∈ p.jumps, j.source ≠ name → j.destination ≠ name →
        (j ∈ (p.remove_node name).2.jumps ↔
          (p.removeNodeRaw name)._validate_jump j
            ((p.removeNodeRaw name)._get_nodes_by_jump) = .ok ()))
    ∧ (∀ j ∈ (p.remove_node name).2.jumps,
        (p.remove_node name).2._validate_jump j
          ((p.remove_node name).2._get_nodes_by_jump) = .ok ()) := by
  rw [remove_node_unfold p name hn]
  have hjumps : (p.removeNodeRaw name).jumps = p.jumps := rfl
  have hconn1 : ∀ s d, (s = name ∨ d = name) →
      (p.removeNodeRaw name).getConnection s d = none := by
    intro s d hsd
    show alookup (p.edges.filter
      (fun e => decide (e.1.1 ≠ name ∧ e.1.2 ≠ name))) (s, d) = none
    rw [alookup_eq_none_iff]
    intro e he hek
    have hq := List.of_mem_filter he
    simp only [decide_eq_true_eq] at hq
    rcases hsd with h0 | h0
    · exact hq.1 (by rw [hek, h0])
    · exact hq.2 (by rw [hek, h0])
  have hconn2 : ∀ s d, s ≠ name → d ≠ name →
      (p.removeNodeRaw name).getConnection s d = p.getConnection s d := by
    intro s d hs hd
    show alookup (p.edges.filter
      (fun e => decide (e.1.1 ≠ name ∧ e.1.2 ≠ name))) (s, d) = _
    exact alookup_filter_keep (fun e _ hek => by
      simp only [decide_eq_true_eq]
      exact ⟨by rw [hek]; exact hs, by rw [hek]; exact hd⟩)
  by_cases h1 : (p.removeNodeRaw name).jumps = []
  · rw [if_pos h1]
    refine ⟨rfl, rfl, hconn1, hconn2, ?_, ?_, ?_⟩
    · intro j hj
      rw [h1] at hj
      simp at hj
    · intro j hj
      rw [hjumps] at h1
      rw [h1] at hj
      simp at hj
    · intro j hj
      rw [h1] at hj
      simp at hj
  · rw [if_neg h1]
    by_cases h2 : (p.removeNodeRaw name).jumps.filter
        (fun j => decide (j.source ≠ name ∧ j.destination ≠ name)) = []
    · rw [if_pos h2]
      refine ⟨rfl, rfl, hconn1, hconn2, ?_, ?_, ?_⟩
      · intro j hj
        simp at hj
      · intro j hj hjs hjd
        exfalso
        have hmem : j ∈ (p.removeNodeRaw name).jumps.filter
            (fun j => decide (j.source ≠ name ∧ j.destination ≠ name)) :=
          List.mem_filter.mpr ⟨by rw [hjumps]; exact hj, by simp [hjs, hjd]⟩
        rw [h2] at hmem
        simp at hmem
      · intro j hj
        simp at hj
    · rw [if_neg h2]
      have hvalid_mem : ∀ j : Jump, j ∈ p.removedValidJumps name ↔
          j ∈ p.jumps ∧ (p.removeNodeRaw name)._validate_jump j
            ((p.removeNodeRaw name)._get_nodes_by_jump) = .ok () := by
        intro j
        rw [Project.removedValidJumps, List.mem_filter, hjumps,
          except_unit_toBool_iff]
      have hvalid_not_touching : ∀ j : Jump, (p.removeNodeRaw name)._validate_jump j
          ((p.removeNodeRaw name)._get_nodes_by_jump) = .ok () →
          j.source ≠ name ∧ j.destination ≠ name := by
        intro j hok
        rw [validate_jump_ok_iff] at hok
        obtain ⟨_, hdest, hsrc, _⟩ := hok
        rw [hasNode_iff] at hdest hsrc
        have hd2 := List.of_mem_filter (p := fun m => decide (m ≠ name)) hdest
        have hs2 := List.of_mem_filter (p := fun m => decide (m ≠ name)) hsrc
        simp only [decide_eq_true_eq] at hd2 hs2
        exact ⟨hs2, hd2⟩
      refine ⟨rfl, rfl, hconn1, hconn2, ?_, ?_, ?_⟩
      · intro j hj
        obtain ⟨_, hok⟩ := (hvalid_mem j).mp hj
        exact hvalid_not_touching j hok
      · intro j hj hjs hjd
        rw [show ((.ok (), { p.removeNodeRaw name with
            jumps := p.removedValidJumps name }) :
            PResult Unit).2.jumps = p.removedValidJumps name from rfl]
        rw [hvalid_mem j]
        constructor
        · exact fun h => h.2
        · exact fun h => ⟨hj, h⟩
      · intro j hj
        obtain ⟨hjmem, hok⟩ := (hvalid_mem j).mp hj
        rw [validate_jump_ok_iff] at hok ⊢
        obtain ⟨hothers, hdest, hsrc, hpath⟩ := hok
        refine ⟨?_, hdest, hsrc, hpath⟩
        have hsub : ∀ o ∈ p.removedValidJumps name, o ∈ (p.removeNodeRaw name).jumps :=
          fun o ho => List.mem_of_mem_filter ho
        have hothers2 := validateJumpOthers_ok_of_subset
          ((p.removeNodeRaw name)._get_nodes_by_jump) j hsub hothers
        rw [validateJumpOthers_ok_iff] at hothers2 ⊢
        intro o ho hne
        have h3 := hothers2 o ho hne
        have hokey : alookup (({ p.removeNodeRaw name with
            jumps := p.removedValidJumps name } : Project)._get_nodes_by_jump)
            (o.source, o.destination) =
            some ((p.removeNodeRaw name).nodesOnSimplePaths o.destination o.source) :=
          get_nodes_by_jump_lookup _ o.source o.destination ⟨o, ho, rfl, rfl⟩
        have hjkey : alookup (({ p.removeNodeRaw name with
            jumps := p.removedValidJumps name } : Project)._get_nodes_by_jump)
            (j.source, j.destination) =
            some ((p.removeNodeRaw name).nodesOnSimplePaths j.destination j.source) :=
          get_nodes_by_jump_lookup _ j.source j.destination ⟨j, hj, rfl, rfl⟩
        have hokey1 : alookup ((p.removeNodeRaw name)._get_nodes_by_jump)
            (o.source, o.destination) =
            some ((p.removeNodeRaw name).nodesOnSimplePaths o.destination o.source) :=
          get_nodes_by_jump_lookup _ o.source o.destination
            ⟨o, List.mem_of_mem_filter ho, rfl, rfl⟩
        have hjkey1 : alookup ((p.removeNodeRaw name)._get_nodes_by_jump)
            (j.source, j.destination) =
            some ((p.removeNodeRaw name).nodesOnSimplePaths j.destination j.source) :=
          get_nodes_by_jump_lookup _ j.source j.destination
            ⟨j, by rw [hjumps]; exact hjmem, rfl, rfl⟩
        rw [hokey1, hjkey1] at h3
        rw [hokey, hjkey]
        exact h3

theorem claim_C5_witness :
    ((Project.remove_node ⟨["a", "b", "c"],
        [(("a", "b"), {}), (("b", "c"), {})], [⟨"c", "a", 1⟩]⟩ "b").1 = .ok ()
    ∧ (Project.remove_node ⟨["a", "b", "c"],
        [(("a", "b"), {}), (("b", "c"), {})], [⟨"c", "a", 1⟩]⟩ "b").2.nodes =
        ["a", "b", "c"].filter (fun m => decide (m ≠ "b"))
    ∧ (∀ s d, (s = "b" ∨ d = "b") →
        (Project.remove_node ⟨["a", "b", "c"],
          [(("a", "b"), {}), (("b", "c"), {})], [⟨"c", "a", 1⟩]⟩ "b").2.getConnection s d = none)
    ∧ (∀ s d, s ≠ "b" → d ≠ "b" →
        (Project.remove_node ⟨["a", "b", "c"],
          [(("a", "b"), {}), (("b", "c"), {})], [⟨"c", "a", 1⟩]⟩ "b").2.getConnection s d =
          Project.getConnection ⟨["a", "b", "c"],
            [(("a", "b"), {}), (("b", "c"), {})], [⟨"c", "a", 1⟩]⟩ s d)
    ∧ (∀ j ∈ (Project.remove_node ⟨["a", "b", "c"],
        [(("a", "b"), {}), (("b", "c"), {})], [⟨"c", "a", 1⟩]⟩ "b").2.jumps,
        j.source ≠ "b" ∧ j.destination ≠ "b")
    ∧ (∀ j ∈ ([⟨"c", "a", 1⟩] : List Jump), j.source ≠ "b" → j.destination ≠ "b" →
        (j ∈ (Project.remove_node ⟨["a", "b", "c"],
          [(("a", "b"), {}), (("b", "c"), {})], [⟨"c", "a", 1⟩]⟩ "b").2.jumps ↔
          (Project.removeNodeRaw ⟨["a", "b", "c"],
            [(("a", "b"), {}), (("b", "c"), {})], [⟨"c", "a", 1⟩]⟩ "b")._validate_jump j
            ((Project.removeNodeRaw ⟨["a", "b", "c"],
              [(("a", "b"), {}), (("b", "c"), {})], [⟨"c", "a", 1⟩]⟩ "b")._get_nodes_by_jump) = .ok ()))
    ∧ (∀ j ∈ (Project.remove_node ⟨["a", "b", "c"],
        [(("a", "b"), {}), (("b", "c"), {})], [⟨"c", "a", 1⟩]⟩ "b").2.jumps,
        (Project.remove_node ⟨["a", "b", "c"],
          [(("a", "b"), {}), (("b", "c"), {})], [⟨"c", "a", 1⟩]⟩ "b").2._validate_jump j
          ((Project.remove_node ⟨["a", "b", "c"],
            [(("a", "b"), {}), (("b", "c"), {})], [⟨"c", "a", 1⟩]⟩ "b").2._get_nodes_by_jump) = .ok ())) :=
  claim_C5 ⟨["a", "b", "c"], [(("a", "b"), {}), (("b", "c"), {})], [⟨"c", "a", 1⟩]⟩
    "b" (by decide)

/-! ## C6: `rename_node` preserves connections and jumps -/

theorem addEdgeRaw_fresh {q : Project} {s d : String} {c : Connection}
    (hs : s ∈ q.nodes) (hd : d ∈ q.nodes)
    (hnone : alookup q.edges (s, d) = none) :
    q.addEdgeRaw s d c = { q with edges := q.edges ++ [((s, d), c)] } := by
  rw [Project.addEdgeRaw, addNodeRaw_of_mem hs, addNodeRaw_of_mem hd,
    if_neg (by simp [hnone])]

theorem foldl_addEdgeRaw_incoming (nn : String) :
    ∀ (L : List (String × Connection)) (q : Project),
      (∀ sc ∈ L, sc.1 ∈ q.nodes) → nn ∈ q.nodes →
      (∀ sc ∈ L, alookup q.edges (sc.1, nn) = none) → (L.map (·.1)).Nodup →
      L.foldl (fun q2 sc => q2.addEdgeRaw sc.1 nn sc.2) q =
        { q with edges := q.edges ++ L.map (fun sc => ((sc.1, nn), sc.2)) } := by
  intro L
  induction L with
  | nil =>
      intro q _ _ _ _
      simp
  | cons sc rest ih =>
      intro q hmem hnn hnone hnd
      rw [List.foldl_cons,
        addEdgeRaw_fresh (hmem sc (List.mem_cons_self sc rest)) hnn
          (hnone sc (List.mem_cons_self sc rest))]
      rw [List.map_cons, List.nodup_cons] at hnd
      rw [ih { q with edges := q.edges ++ [((sc.1, nn), sc.2)] }
        (fun sc2 h2 => hmem sc2 (List.mem_cons_of_mem sc h2)) hnn
        (fun sc2 h2 => by
          rw [alookup_append_of_none _ (hnone sc2 (List.mem_cons_of_mem sc h2)),
            alookup_cons, if_neg]
          · rfl
          · intro hk
            apply hnd.1
            have hk2 : (sc.1, nn) = (sc2.1, nn) := hk
            have hk3 : sc.1 = sc2.1 := by injection hk2
            rw [hk3]
            exact List.mem_map_of_mem (·.1) h2)
        hnd.2]
      simp [List.map_cons]

theorem foldl_addEdgeRaw_outgoing (nn : String) :
    ∀ (L : List (String × Connection)) (q : Project),
      (∀ dc ∈ L, dc.1 ∈ q.nodes) → nn ∈ q.nodes →
      (∀ dc ∈ L, alookup q.edges (nn, dc.1) = none) → (L.map (·.1)).Nodup →
      L.foldl (fun q2 dc => q2.addEdgeRaw nn dc.1 dc.2) q =
        { q with edges := q.edges ++ L.map (fun dc => ((nn, dc.1), dc.2)) } := by
  intro L
  induction L with
  | nil =>
      intro q _ _ _ _
      simp
  | cons dc rest ih =>
      intro q hmem hnn hnone hnd
      rw [List.foldl_cons,
        addEdgeRaw_fresh hnn (hmem dc (List.mem_cons_self dc rest))
          (hnone dc (List.mem_cons_self dc rest))]
      rw [List.map_cons, List.nodup_cons] at hnd
      rw [ih { q with edges := q.edges ++ [((nn, dc.1), dc.2)] }
        (fun dc2 h2 => hmem dc2 (List.mem_cons_of_mem dc h2)) hnn
        (fun dc2 h2 => by
          rw [alookup_append_of_none _ (hnone dc2 (List.mem_cons_of_mem dc h2)),
            alookup_cons, if_neg]
          · rfl
          · intro hk
            apply hnd.1
            have hk2 : (nn, dc.1) = (nn, dc2.1) := hk
            have hk3 : dc.1 = dc2.1 := by injection hk2
            rw [hk3]
            exact List.mem_map_of_mem (·.1) h2)
        hnd.2]
      simp [List.map_cons]

theorem filterMap_incoming_cons_pos {name : String}
    (e : (String × String) × Connection) (t : List ((String × String) × Connection))
    (h : e.1.2 = name) :
    (e :: t).filterMap (fun e => if e.1.2 = name then some (e.1.1, e.2) else none) =
      (e.1.1, e.2) ::
        t.filterMap (fun e => if e.1.2 = name then some (e.1.1, e.2) else none) := by
  rw [List.filterMap_cons, if_pos h]

theorem filterMap_incoming_cons_neg {name : String}
    (e : (String × String) × Connection) (t : List ((String × String) × Connection))
    (h : ¬e.1.2 = name) :
    (e :: t).filterMap (fun e => if e.1.2 = name then some (e.1.1, e.2) else none) =
      t.filterMap (fun e => if e.1.2 = name then some (e.1.1, e.2) else none) := by
  rw [List.filterMap_cons, if_neg h]

theorem filterMap_outgoing_cons_pos {name : String}
    (e : (String × String) × Connection) (t : List ((String × String) × Connection))
    (h : e.1.1 = name) :
    (e :: t).filterMap (fun e => if e.1.1 = name then some (e.1.2, e.2) else none) =
      (e.1.2, e.2) ::
        t.filterMap (fun e => if e.1.1 = name then some (e.1.2, e.2) else none) := by
  rw [List.filterMap_cons, if_pos h]

theorem filterMap_outgoing_cons_neg {name : String}
    (e : (String × String) × Connection) (t : List ((String × String) × Connection))
    (h : ¬e.1.1 = name) :
    (e :: t).filterMap (fun e => if e.1.1 = name then some (e.1.2, e.2) else none) =
      t.filterMap (fun e => if e.1.1 = name then some (e.1.2, e.2) else none) := by
  rw [List.filterMap_cons, if_neg h]

theorem alookup_incoming_map (name nn s2 : String) :
    ∀ E : List ((String × String) × Connection),
      alookup ((E.filterMap
          (fun e => if e.1.2 = name then some (e.1.1, e.2) else none)).map
        (fun sc => ((sc.1, nn), sc.2))) (s2, nn) = alookup E (s2, name) := by
  intro E
  induction E with
  | nil => rfl
  | cons e t ih =>
      by_cases hdst : e.1.2 = name
      · rw [filterMap_incoming_cons_pos e t hdst, List.map_cons, alookup_cons,
          alookup_cons]
        by_cases hsrc : e.1.1 = s2
        · rw [if_pos (by simp [hsrc]), if_pos (by
            show e.1 = (s2, name)
            rw [← hsrc, ← hdst])]
        · rw [if_neg (by simp [hsrc]), if_neg (by
            intro hk
            exact hsrc (congrArg Prod.fst hk)), ih]
      · rw [filterMap_incoming_cons_neg e t hdst, alookup_cons, if_neg (by
          intro hk
          exact hdst (congrArg Prod.snd hk)), ih]

theorem alookup_outgoing_map (name nn d2 : String) :
    ∀ E : List ((String × String) × Connection),
      alookup ((E.filterMap
          (fun e => if e.1.1 = name then some (e.1.2, e.2) else none)).map
        (fun dc => ((nn, dc.1), dc.2))) (nn, d2) = alookup E (name, d2) := by
  intro E
  induction E with
  | nil => rfl
  | cons e t ih =>
      by_cases hsrc : e.1.1 = name
      · rw [filterMap_outgoing_cons_pos e t hsrc, List.map_cons, alookup_cons,
          alookup_cons]
        by_cases hdst : e.1.2 = d2
        · rw [if_pos (by simp [hdst]), if_pos (by
            show e.1 = (name, d2)
            rw [← hsrc, ← hdst])]
        · rw [if_neg (by simp [hdst]), if_neg (by
            intro hk
            exact hdst (congrArg Prod.snd hk)), ih]
      · rw [filterMap_outgoing_cons_neg e t hsrc, alookup_cons, if_neg (by
          intro hk
          exact hsrc (congrArg Prod.fst hk)), ih]

theorem incoming_source_mem {E : List ((String × String) × Connection)}
    {name : String} {sc : String × Connection}
    (h : sc ∈ E.filterMap (fun e => if e.1.2 = name then some (e.1.1, e.2) else none)) :
    ∃ e ∈ E, e.1.1 = sc.1 ∧ e.1.2 = name ∧ e.2 = sc.2 := by
  obtain ⟨e, he, hfe⟩ := List.mem_filterMap.mp h
  by_cases hd : e.1.2 = name
  · rw [if_pos hd] at hfe
    have hfe2 : (e.1.1, e.2) = sc := Option.some_injective _ hfe
    exact ⟨e, he, congrArg Prod.fst hfe2, hd, congrArg Prod.snd hfe2⟩
  · rw [if_neg hd] at hfe
    exact absurd hfe (by simp)

theorem outgoing_dest_mem {E : List ((String × String) × Connection)}
    {name : String} {dc : String × Connection}
    (h : dc ∈ E.filterMap (fun e => if e.1.1 = name then some (e.1.2, e.2) else none)) :
    ∃ e ∈ E, e.1.2 = dc.1 ∧ e.1.1 = name ∧ e.2 = dc.2 := by
  obtain ⟨e, he, hfe⟩ := List.mem_filterMap.mp h
  by_cases hs : e.1.1 = name
  · rw [if_pos hs] at hfe
    have hfe2 : (e.1.2, e.2) = dc := Option.some_injective _ hfe
    exact ⟨e, he, congrArg Prod.fst hfe2, hs, congrArg Prod.snd hfe2⟩
  · rw [if_neg hs] at hfe
    exact absurd hfe (by simp)

theorem nodup_incoming_sources {name : String} :
    ∀ E : List ((String × String) × Connection), (E.map (·.1)).Nodup →
      ((E.filterMap (fun e => if e.1.2 = name then some (e.1.1, e.2) else none)).map
        (·.1)).Nodup := by
  intro E
  induction E with
  | nil => intro _; simp
  | cons e t ih =>
      intro hnd
      rw [List.map_cons, List.nodup_cons] at hnd
      by_cases hd : e.1.2 = name
      · rw [filterMap_incoming_cons_pos e t hd, List.map_cons, List.nodup_cons]
        refine ⟨?_, ih hnd.2⟩
        intro hmem
        obtain ⟨sc, hsc, hfst⟩ := List.mem_map.mp hmem
        obtain ⟨e2, he2, h1, h2, _⟩ := incoming_source_mem hsc
        apply hnd.1
        have hkey : e.1 = e2.1 := by
          have hx : e2.1 = (e.1.1, e.1.2) := by
            have : e2.1 = (e2.1.1, e2.1.2) := rfl
            rw [this, h1, hfst, h2, ← hd]
          rw [hx]
        rw [hkey]
        exact List.mem_map_of_mem (·.1) he2
      · rw [filterMap_incoming_cons_neg e t hd]
        exact ih hnd.2

theorem nodup_outgoing_dests {name : String} :
    ∀ E : List ((String × String) × Connection), (E.map (·.1)).Nodup →
      ((E.filterMap (fun e => if e.1.1 = name then some (e.1.2, e.2) else none)).map
        (·.1)).Nodup := by
  intro E
  induction E with
  | nil => intro _; simp
  | cons e t ih =>
      intro hnd
      rw [List.map_cons, List.nodup_cons] at hnd
      by_cases hs : e.1.1 = name
      · rw [filterMap_outgoing_cons_pos e t hs, List.map_cons, List.nodup_cons]
        refine ⟨?_, ih hnd.2⟩
        intro hmem
        obtain ⟨dc, hdc, hfst⟩ := List.mem_map.mp hmem
        obtain ⟨e2, he2, h1, h2, _⟩ := outgoing_dest_mem hdc
        apply hnd.1
        have hkey : e.1 = e2.1 := by
          have hx : e2.1 = (e.1.1, e.1.2) := by
            have : e2.1 = (e2.1.1, e2.1.2) := rfl
            rw [this, h2, h1, hfst, ← hs]
          rw [hx]
        rw [hkey]
        exact List.mem_map_of_mem (·.1) he2
      · rw [filterMap_outgoing_cons_neg e t hs]
        exact ih hnd.2

/-- **C6.** `rename_node` on a colliding new name raises `DuplicateName`
(exact clash) or `DuplicateShortName` (shortened-form clash) leaving the
project untouched; on a non-colliding name it succeeds and migrates every
incoming edge `(s, name)` to `(s, new_name)` and every outgoing edge
`(name, d)` to `(new_name, d)` with the very same connection value,
touches no other edge, and rewrites the jump list in place: each jump is
the same object with its `source` and/or `destination` field renamed
(both for a self-jump). -/
theorem claim_C6 (p : Project) (name new_name : String)
    (hn : p.hasNode name = true)
    (hwf1 : ∀ e ∈ p.edges, e.1.1 ∈ p.nodes ∧ e.1.2 ∈ p.nodes)
    (hwf2 : ∀ e ∈ p.edges, e.1.1 ≠ e.1.2)
    (hwf3 : (p.edges.map (·.1)).Nodup) :
    (p.hasNode new_name = true →
        p.rename_node name new_name = (.error .duplicateName, p))
    ∧ (¬p.hasNode new_name = true →
        p.nodes.any (fun n => decide (shorten new_name = shorten n)) = true →
        p.rename_node name new_name = (.error .duplicateShortName, p))
    ∧ (¬p.hasNode new_name = true →
        ¬p.nodes.any (fun n => decide (shorten new_name = shorten n)) = true →
        (p.rename_node name new_name).1 = .ok ()
        ∧ (p.rename_node name new_name).2.nodes =
            p.nodes.filter (fun m => decide (m ≠ name)) ++ [new_name]
        ∧ (∀ s2, (p.rename_node name new_name).2.getConnection s2 new_name =
            p.getConnection s2 name)
        ∧ (∀ d2, (p.rename_node name new_name).2.getConnection new_name d2 =
            p.getConnection name d2)
        ∧ (∀ s2 d2, s2 ≠ name → d2 ≠ name → s2 ≠ new_name → d2 ≠ new_name →
            (p.rename_node name new_name).2.getConnection s2 d2 =
              p.getConnection s2 d2)
        ∧ (p.rename_node name new_name).2.jumps = p.jumps.map (fun j =>
            { j with
              source := if j.source = name then new_name else j.source,
              destination := if j.destination = name then new_name else j.destination })) := by
  refine ⟨?_, ?_, ?_⟩
  · intro hdup
    rw [Project.rename_node, if_neg (by simp [hn]), if_pos hdup]
  · intro h1 h2
    rw [Project.rename_node, if_neg (by simp [hn]), if_neg (by simp [h1]),
      if_pos h2]
  · intro h1 h2
    have hnnm : new_name ∉ p.nodes := fun hm => h1 ((hasNode_iff p new_name).mpr hm)
    have hwne : ∀ e ∈ p.edges, e.1.1 ≠ new_name ∧ e.1.2 ≠ new_name := by
      intro e he
      obtain ⟨ha, hb⟩ := hwf1 e he
      exact ⟨fun hq => hnnm (hq ▸ ha), fun hq => hnnm (hq ▸ hb)⟩
    have hincP : ∀ sc ∈ p.edges.filterMap
        (fun e => if e.1.2 = name then some (e.1.1, e.2) else none),
        sc.1 ∈ p.nodes ∧ sc.1 ≠ name ∧ sc.1 ≠ new_name := by
      intro sc hsc
      obtain ⟨e, he, h1e, h2e, _⟩ := incoming_source_mem hsc
      refine ⟨h1e ▸ (hwf1 e he).1, ?_, h1e ▸ (hwne e he).1⟩
      intro hq
      exact hwf2 e he (by rw [h1e, hq, h2e])
    have houtP : ∀ dc ∈ p.edges.filterMap
        (fun e => if e.1.1 = name then some (e.1.2, e.2) else none),
        dc.1 ∈ p.nodes ∧ dc.1 ≠ name ∧ dc.1 ≠ new_name := by
      intro dc hdc
      obtain ⟨e, he, h1e, h2e, _⟩ := outgoing_dest_mem hdc
      refine ⟨h1e ▸ (hwf1 e he).2, ?_, h1e ▸ (hwne e he).2⟩
      intro hq
      exact hwf2 e he (by rw [h1e, hq, h2e])
    have hE0none : ∀ k : String × String, (k.1 = new_name ∨ k.2 = new_name) →
        alookup (p.removeNodeRaw name).edges k = none := by
      intro k hk
      rw [alookup_eq_none_iff]
      intro e he hek
      have he2 := List.mem_of_mem_filter he
      obtain ⟨ha, hb⟩ := hwne e he2
      rcases hk with h0 | h0
      · exact ha (by rw [hek, h0])
      · exact hb (by rw [hek, h0])
    have hfold1 := foldl_addEdgeRaw_incoming new_name
      (p.edges.filterMap (fun e => if e.1.2 = name then some (e.1.1, e.2) else none))
      { p.removeNodeRaw name with nodes := (p.removeNodeRaw name).nodes ++ [new_name] }
      (by
        intro sc hsc
        obtain ⟨hmem, hne, _⟩ := hincP sc hsc
        exact List.mem_append_left _ (List.mem_filter.mpr ⟨hmem, by simp [hne]⟩))
      (List.mem_append_right _ (List.mem_singleton.mpr rfl))
      (by
        intro sc hsc
        exact hE0none (sc.1, new_name) (Or.inr rfl))
      (nodup_incoming_sources p.edges hwf3)
    have hfold2 := foldl_addEdgeRaw_outgoing new_name
      (p.edges.filterMap (fun e => if e.1.1 = name then some (e.1.2, e.2) else none))
      ((p.edges.filterMap
          (fun e => if e.1.2 = name then some (e.1.1, e.2) else none)).foldl
        (fun q2 sc => q2.addEdgeRaw sc.1 new_name sc.2)
        { p.removeNodeRaw name with
          nodes := (p.removeNodeRaw name).nodes ++ [new_name] })
      (by
        rw [hfold1]
        intro dc hdc
        obtain ⟨hmem, hne, _⟩ := houtP dc hdc
        exact List.mem_append_left _ (List.mem_filter.mpr ⟨hmem, by simp [hne]⟩))
      (by
        rw [hfold1]
        exact List.mem_append_right _ (List.mem_singleton.mpr rfl))
      (by
        rw [hfold1]
        intro dc hdc
        show alookup ((p.removeNodeRaw name).edges ++ p.renamedIncoming name new_name)
          (new_name, dc.1) = none
        rw [alookup_append_of_none _ (hE0none (new_name, dc.1) (Or.inl rfl)),
          alookup_eq_none_iff]
        intro e2 he2 hek
        obtain ⟨sc, hsc, hmape⟩ := List.mem_map.mp he2
        obtain ⟨_, _, hscnn⟩ := hincP sc hsc
        apply hscnn
        have : e2.1 = (sc.1, new_name) := by rw [← hmape]
        rw [this] at hek
        exact congrArg Prod.fst hek)
      (nodup_outgoing_dests p.edges hwf3)
    have hres : p.rename_node name new_name = (.ok (),
        { nodes := (p.removeNodeRaw name).nodes ++ [new_name],
          edges := ((p.removeNodeRaw name).edges ++ p.renamedIncoming name new_name)
            ++ p.renamedOutgoing name new_name,
          jumps := p.jumps.map (fun j =>
            { j with
              source := if j.source = name then new_name else j.source,
              destination := if j.destination = name then new_name else j.destination }) }) := by
      have e1 : p.rename_node name new_name = (.ok (),
          { p.renameFoldOutcome name new_name with
            jumps := (p.renameFoldOutcome name new_name).jumps.map (fun j =>
              { j with
                source := if j.source = name then new_name else j.source,
                destination :=
                  if j.destination = name then new_name else j.destination }) }) := by
        rw [Project.rename_node, if_neg (by simp [hn]), if_neg (by simp [h1]),
          if_neg h2]
        rfl
      have hcomp : p.renameFoldOutcome name new_name =
          (⟨(p.removeNodeRaw name).nodes ++ [new_name],
            ((p.removeNodeRaw name).edges ++ p.renamedIncoming name new_name)
              ++ p.renamedOutgoing name new_name,
            p.jumps⟩ : Project) := by
        rw [Project.renameFoldOutcome, hfold2, hfold1]
        rfl
      rw [e1, hcomp]
    rw [hres]
    refine ⟨rfl, rfl, ?_, ?_, ?_, rfl⟩
    · intro s2
      show alookup (((p.removeNodeRaw name).edges ++ p.renamedIncoming name new_name)
          ++ p.renamedOutgoing name new_name) (s2, new_name) = alookup p.edges (s2, name)
      have hinc : alookup (p.renamedIncoming name new_name) (s2, new_name) =
          alookup p.edges (s2, name) := alookup_incoming_map name new_name s2 p.edges
      have houtnone : alookup (p.renamedOutgoing name new_name) (s2, new_name) = none := by
        rw [alookup_eq_none_iff]
        intro e2 he2 hek
        obtain ⟨dc, hdc, hmape⟩ := List.mem_map.mp he2
        obtain ⟨_, _, hdcnn⟩ := houtP dc hdc
        apply hdcnn
        have : e2.1 = (new_name, dc.1) := by rw [← hmape]
        rw [this] at hek
        exact congrArg Prod.snd hek
      cases hv : alookup (p.renamedIncoming name new_name) (s2, new_name) with
      | some c =>
          rw [alookup_append_of_some _
            (by rw [alookup_append_of_none _ (hE0none (s2, new_name) (Or.inr rfl))]
                exact hv)]
          rw [← hinc, hv]
      | none =>
          rw [alookup_append_of_none _
            (by rw [alookup_append_of_none _ (hE0none (s2, new_name) (Or.inr rfl))]
                exact hv),
            houtnone, ← hinc, hv]
    · intro d2
      show alookup (((p.removeNodeRaw name).edges ++ p.renamedIncoming name new_name)
          ++ p.renamedOutgoing name new_name) (new_name, d2) = alookup p.edges (name, d2)
      have hincnone : alookup (p.renamedIncoming name new_name) (new_name, d2) = none := by
        rw [alookup_eq_none_iff]
        intro e2 he2 hek
        obtain ⟨sc, hsc, hmape⟩ := List.mem_map.mp he2
        obtain ⟨_, _, hscnn⟩ := hincP sc hsc
        apply hscnn
        have : e2.1 = (sc.1, new_name) := by rw [← hmape]
        rw [this] at hek
        exact congrArg Prod.fst hek
      rw [alookup_append_of_none _
        (by rw [alookup_append_of_none _ (hE0none (new_name, d2) (Or.inl rfl))]
            exact hincnone)]
      exact alookup_outgoing_map name new_name d2 p.edges
    · intro s2 d2 hs2 hd2 hs2n hd2n
      show alookup (((p.removeNodeRaw name).edges ++ p.renamedIncoming name new_name)
          ++ p.renamedOutgoing name new_name) (s2, d2) = alookup p.edges (s2, d2)
      have hE0eq : alookup (p.removeNodeRaw name).edges (s2, d2) =
          alookup p.edges (s2, d2) :=
        alookup_filter_keep (fun e _ hek => by
          simp only [decide_eq_true_eq]
          exact ⟨by rw [hek]; exact hs2, by rw [hek]; exact hd2⟩)
      have hincnone : alookup (p.renamedIncoming name new_name) (s2, d2) = none := by
        rw [alookup_eq_none_iff]
        intro e2 he2 hek
        obtain ⟨sc, hsc, hmape⟩ := List.mem_map.mp he2
        apply hd2n
        have : e2.1 = (sc.1, new_name) := by rw [← hmape]
        rw [this] at hek
        exact (congrArg Prod.snd hek).symm
      have houtnone : alookup (p.renamedOutgoing name new_name) (s2, d2) = none := by
        rw [alookup_eq_none_iff]
        intro e2 he2 hek
        obtain ⟨dc, hdc, hmape⟩ := List.mem_map.mp he2
        apply hs2n
        have : e2.1 = (new_name, dc.1) := by rw [← hmape]
        rw [this] at hek
        exact (congrArg Prod.fst hek).symm
      cases hv : alookup p.edges (s2, d2) with
      | some c =>
          exact alookup_append_of_some _
            (alookup_append_of_some _ (hE0eq.trans hv))
      | none =>
          rw [alookup_append_of_none _
            (by rw [alookup_append_of_none _ (hE0eq.trans hv)]
                exact hincnone)]
          exact houtnone

/-- Witness for C6: renaming the middle node of `a → b → c` with a jump
`c → a` and a self-jump `b → b`. -/
theorem claim_C6_witness :
    ((Project.hasNode ⟨["a", "b", "c"],
        [(("a", "b"), ⟨none, none, 7⟩), (("b", "c"), ⟨none, none, 8⟩)],
        [⟨"c", "a", 1⟩, ⟨"b", "b", 2⟩]⟩ "B z" = true →
        Project.rename_node ⟨["a", "b", "c"],
          [(("a", "b"), ⟨none, none, 7⟩), (("b", "c"), ⟨none, none, 8⟩)],
          [⟨"c", "a", 1⟩, ⟨"b", "b", 2⟩]⟩ "b" "B z" =
          (.error .duplicateName, ⟨["a", "b", "c"],
            [(("a", "b"), ⟨none, none, 7⟩), (("b", "c"), ⟨none, none, 8⟩)],
            [⟨"c", "a", 1⟩, ⟨"b", "b", 2⟩]⟩))
    ∧ (¬Project.hasNode ⟨["a", "b", "c"],
        [(("a", "b"), ⟨none, none, 7⟩), (("b", "c"), ⟨none, none, 8⟩)],
        [⟨"c", "a", 1⟩, ⟨"b", "b", 2⟩]⟩ "B z" = true →
        (["a", "b", "c"].any (fun n => decide (shorten "B z" = shorten n))) = true →
        Project.rename_node ⟨["a", "b", "c"],
          [(("a", "b"), ⟨none, none, 7⟩), (("b", "c"), ⟨none, none, 8⟩)],
          [⟨"c", "a", 1⟩, ⟨"b", "b", 2⟩]⟩ "b" "B z" =
          (.error .duplicateShortName, ⟨["a", "b", "c"],
            [(("a", "b"), ⟨none, none, 7⟩), (("b", "c"), ⟨none, none, 8⟩)],
            [⟨"c", "a", 1⟩, ⟨"b", "b", 2⟩]⟩))
    ∧ (¬Project.hasNode ⟨["a", "b", "c"],
        [(("a", "b"), ⟨none, none, 7⟩), (("b", "c"), ⟨none, none, 8⟩)],
        [⟨"c", "a", 1⟩, ⟨"b", "b", 2⟩]⟩ "B z" = true →
        ¬(["a", "b", "c"].any (fun n => decide (shorten "B z" = shorten n))) = true →
        (Project.rename_node ⟨["a", "b", "c"],
          [(("a", "b"), ⟨none, none, 7⟩), (("b", "c"), ⟨none, none, 8⟩)],
          [⟨"c", "a", 1⟩, ⟨"b", "b", 2⟩]⟩ "b" "B z").1 = .ok ()
        ∧ (Project.rename_node ⟨["a", "b", "c"],
            [(("a", "b"), ⟨none, none, 7⟩), (("b", "c"), ⟨none, none, 8⟩)],
            [⟨"c", "a", 1⟩, ⟨"b", "b", 2⟩]⟩ "b" "B z").2.nodes =
            ["a", "b", "c"].filter (fun m => decide (m ≠ "b")) ++ ["B z"]
        ∧ (∀ s2, (Project.rename_node ⟨["a", "b", "c"],
            [(("a", "b"), ⟨none, none, 7⟩), (("b", "c"), ⟨none, none, 8⟩)],
            [⟨"c", "a", 1⟩, ⟨"b", "b", 2⟩]⟩ "b" "B z").2.getConnection s2 "B z" =
            Project.getConnection ⟨["a", "b", "c"],
              [(("a", "b"), ⟨none, none, 7⟩), (("b", "c"), ⟨none, none, 8⟩)],
              [⟨"c", "a", 1⟩, ⟨"b", "b", 2⟩]⟩ s2 "b")
        ∧ (∀ d2, (Project.rename_node ⟨["a", "b", "c"],
            [(("a", "b"), ⟨none, none, 7⟩), (("b", "c"), ⟨none, none, 8⟩)],
            [⟨"c", "a", 1⟩, ⟨"b", "b", 2⟩]⟩ "b" "B z").2.getConnection "B z" d2 =
            Project.getConnection ⟨["a", "b", "c"],
              [(("a", "b"), ⟨none, none, 7⟩), (("b", "c"), ⟨none, none, 8⟩)],
              [⟨"c", "a", 1⟩, ⟨"b", "b", 2⟩]⟩ "b" d2)
        ∧ (∀ s2 d2, s2 ≠ "b" → d2 ≠ "b" → s2 ≠ "B z" → d2 ≠ "B z" →
            (Project.rename_node ⟨["a", "b", "c"],
              [(("a", "b"), ⟨none, none, 7⟩), (("b", "c"), ⟨none, none, 8⟩)],
              [⟨"c", "a", 1⟩, ⟨"b", "b", 2⟩]⟩ "b" "B z").2.getConnection s2 d2 =
              Project.getConnection ⟨["a", "b", "c"],
                [(("a", "b"), ⟨none, none, 7⟩), (("b", "c"), ⟨none, none, 8⟩)],
                [⟨"c", "a", 1⟩, ⟨"b", "b", 2⟩]⟩ s2 d2)
        ∧ (Project.rename_node ⟨["a", "b", "c"],
            [(("a", "b"), ⟨none, none, 7⟩), (("b", "c"), ⟨none, none, 8⟩)],
            [⟨"c", "a", 1⟩, ⟨"b", "b", 2⟩]⟩ "b" "B z").2.jumps =
            ([⟨"c", "a", 1⟩, ⟨"b", "b", 2⟩] : List Jump).map (fun j =>
              { j with
                source := if j.source = "b" then "B z" else j.source,
                destination := if j.destination = "b" then "B z" else j.destination }))) :=
  claim_C6 ⟨["a", "b", "c"],
    [(("a", "b"), ⟨none, none, 7⟩), (("b", "c"), ⟨none, none, 8⟩)],
    [⟨"c", "a", 1⟩, ⟨"b", "b", 2⟩]⟩ "b" "B z" (by decide) (by decide) (by decide)
    (by decide)

/-! ## Engine lemmas: the shape of one solid step -/

theorem processEvent_outcomes (em : SpineEngineModel) (dir : ExecutionDirection)
    (st : PipelineState) (ev : DagsterEvent) :
    (processEvent em dir st ev).outcomes = st.outcomes := by
  cases ev with
  | mk t sid => cases t <;> rfl

theorem processEvent_calls (em : SpineEngineModel) (dir : ExecutionDirection)
    (st : PipelineState) (ev : DagsterEvent) :
    (processEvent em dir st ev).calls = st.calls := by
  cases ev with
  | mk t sid => cases t <;> rfl

/-- The five-way case shape of `execSolidStep`: it pushes exactly one
outcome for the solid, possibly one contract call, and some published
events, and moves the engine state only as `_process_event` does. -/
theorem execSolidStep_spec (em : SpineEngineModel) (dir : ExecutionDirection)
    (inj : List (String × List String)) (permits : List (String × Bool))
    (st : PipelineState) (sid : String) (item : ExecutableItem) :
    ∃ (o : StepOutcome) (newCalls : List TraceCall) (newPub : List PubEvent),
      (execSolidStep em dir inj permits st sid item).outcomes = (sid, o) :: st.outcomes
      ∧ (execSolidStep em dir inj permits st sid item).calls = newCalls ++ st.calls
      ∧ (execSolidStep em dir inj permits st sid item).published = st.published ++ newPub
      ∧ (∀ e ∈ newPub, e.direction = dir)
      ∧ (∀ c ∈ newCalls, c.direction = dir ∧ c.solidId = sid
          ∧ c.isExecute = (alookup permits sid).getD true
          ∧ c.inputs = ((alookup inj sid).getD []).flatMap
              (fun d => em.outputsOfSolid d dir))
      ∧ (o ≠ .skipped →
          ∀ d ∈ (alookup inj sid).getD [], alookup st.outcomes d = some .success)
      ∧ (o = .success → ∃ c ∈ newCalls, c.solidId = sid)
      ∧ ((st.engineState = .RUNNING ∨ st.engineState = .FAILED) →
          ((execSolidStep em dir inj permits st sid item).engineState = .RUNNING
            ∨ (execSolidStep em dir inj permits st sid item).engineState = .FAILED))
      ∧ (st.engineState = .FAILED →
          (execSolidStep em dir inj permits st sid item).engineState = .FAILED
          ∧ newCalls = [])
      ∧ ((st.engineState = .RUNNING ∨ st.engineState = .FAILED) → o = .failure →
          (execSolidStep em dir inj permits st sid item).engineState = .FAILED)
      ∧ (newCalls ≠ [] → o ≠ .skipped) := by
  rw [execSolidStep]
  by_cases h1 : (((alookup inj sid).getD []).all
      (fun d => decide (alookup st.outcomes d = some .success))) = true
  · rw [if_pos h1]
    have hdeps : ∀ d ∈ (alookup inj sid).getD [],
        alookup st.outcomes d = some .success := by
      intro d hd
      have := List.all_eq_true.mp h1 d hd
      simpa using this
    by_cases h2 : (solidStartState em dir st sid).engineState = .USER_STOPPED
        ∨ (solidStartState em dir st sid).engineState = .FAILED
    · rw [if_pos h2]
      refine ⟨.failure, [], [⟨"exec_started", em.itemNameOf sid, dir, none⟩,
        ⟨"exec_finished", em.itemNameOf sid, dir,
          some (if (solidStartState em dir st sid).engineState ≠ .USER_STOPPED
            then .FAILED else (solidStartState em dir st sid).engineState)⟩],
        rfl, rfl, ?_, ?_, ?_, fun _ => hdeps, ?_, ?_, ?_, ?_, ?_⟩
      · show st.published ++ [_] ++ [_] = st.published ++ _
        rw [List.append_assoc]
        rfl
      · intro e he
        rcases List.mem_cons.mp he with h0 | h0
        · rw [h0]
        · rw [List.mem_singleton.mp h0]
      · intro c hc
        simp at hc
      · intro h0
        exact absurd h0 (by simp)
      · intro h0
        show (if (solidStartState em dir st sid).engineState ≠ .USER_STOPPED
          then SpineEngineState.FAILED
          else (solidStartState em dir st sid).engineState) = .RUNNING
          ∨ (if (solidStartState em dir st sid).engineState ≠ .USER_STOPPED
          then SpineEngineState.FAILED
          else (solidStartState em dir st sid).engineState) = .FAILED
        right
        rcases h0 with h0 | h0 <;> rw [if_pos (by
          rw [show (solidStartState em dir st sid).engineState = st.engineState from rfl, h0]
          simp)]
      · intro h0
        refine ⟨?_, rfl⟩
        show (if (solidStartState em dir st sid).engineState ≠ .USER_STOPPED
          then SpineEngineState.FAILED
          else (solidStartState em dir st sid).engineState) = .FAILED
        rw [if_pos (by
          rw [show (solidStartState em dir st sid).engineState = st.engineState from rfl, h0]
          simp)]
      · intro h0 _
        show (if (solidStartState em dir st sid).engineState ≠ .USER_STOPPED
          then SpineEngineState.FAILED
          else (solidStartState em dir st sid).engineState) = .FAILED
        rcases h0 with h0 | h0 <;> rw [if_pos (by
          rw [show (solidStartState em dir st sid).engineState = st.engineState from rfl, h0]
          simp)]
      · intro h0
        exact absurd rfl h0
    · rw [if_neg h2]
      by_cases h3 : ((alookup permits sid).getD true) = true
      · rw [if_pos h3]
        by_cases h4 : item.executeOk dir = true
        · rw [if_pos h4]
          refine ⟨.success, [⟨sid, item.name, dir, true,
              ((alookup inj sid).getD []).flatMap (fun d => em.outputsOfSolid d dir)⟩],
            [⟨"exec_started", em.itemNameOf sid, dir, none⟩,
             ⟨"exec_finished", em.itemNameOf sid, dir, some st.engineState⟩],
            rfl, rfl, ?_, ?_, ?_, fun _ => hdeps, ?_, ?_, ?_, ?_, ?_⟩
          · show st.published ++ [_] ++ [_] = st.published ++ _
            rw [List.append_assoc]
            rfl
          · intro e he
            rcases List.mem_cons.mp he with h0 | h0
            · rw [h0]
            · rw [List.mem_singleton.mp h0]
          · intro c hc
            rw [List.mem_singleton.mp hc]
            exact ⟨rfl, rfl, h3.symm, rfl⟩
          · intro _
            exact ⟨_, List.mem_singleton.mpr rfl, rfl⟩
          · intro h0
            show st.engineState = .RUNNING ∨ st.engineState = .FAILED
            exact h0
          · intro h0
            exfalso
            exact h2 (Or.inr h0)
          · intro _ h0
            exact absurd h0 (by simp)
          · intro _
            simp
        · rw [if_neg h4]
          refine ⟨.failure, [⟨sid, item.name, dir, true,
              ((alookup inj sid).getD []).flatMap (fun d => em.outputsOfSolid d dir)⟩],
            [⟨"exec_started", em.itemNameOf sid, dir, none⟩,
             ⟨"exec_finished", em.itemNameOf sid, dir,
               some (if st.engineState ≠ .USER_STOPPED then .FAILED
                 else st.engineState)⟩],
            rfl, rfl, ?_, ?_, ?_, fun _ => hdeps, ?_, ?_, ?_, ?_, ?_⟩
          · show st.published ++ [_] ++ [_] = st.published ++ _
            rw [List.append_assoc]
            rfl
          · intro e he
            rcases List.mem_cons.mp he with h0 | h0
            · rw [h0]
            · rw [List.mem_singleton.mp h0]
          · intro c hc
            rw [List.mem_singleton.mp hc]
            exact ⟨rfl, rfl, h3.symm, rfl⟩
          · intro h0
            exact absurd h0 (by simp)
          · intro h0
            show (if st.engineState ≠ .USER_STOPPED then SpineEngineState.FAILED
              else st.engineState) = .RUNNING
              ∨ (if st.engineState ≠ .USER_STOPPED then SpineEngineState.FAILED
              else st.engineState) = .FAILED
            right
            rcases h0 with h0 | h0 <;> rw [if_pos (by rw [h0]; simp)]
          · intro h0
            exfalso
            exact h2 (Or.inr h0)
          · intro h0 _
            show (if st.engineState ≠ .USER_STOPPED then SpineEngineState.FAILED
              else st.engineState) = .FAILED
            rcases h0 with h0 | h0 <;> rw [if_pos (by rw [h0]; simp)]
          · intro _
            simp
      · rw [if_neg h3]
        refine ⟨.success, [⟨sid, item.name, dir, false,
            ((alookup inj sid).getD []).flatMap (fun d => em.outputsOfSolid d dir)⟩],
          [⟨"exec_started", em.itemNameOf sid, dir, none⟩,
           ⟨"exec_finished", em.itemNameOf sid, dir, some st.engineState⟩],
          rfl, rfl, ?_, ?_, ?_, fun _ => hdeps, ?_, ?_, ?_, ?_, ?_⟩
        · show st.published ++ [_] ++ [_] = st.published ++ _
          rw [List.append_assoc]
          rfl
        · intro e he
          rcases List.mem_cons.mp he with h0 | h0
          · rw [h0]
          · rw [List.mem_singleton.mp h0]
        · intro c hc
          rw [List.mem_singleton.mp hc]
          refine ⟨rfl, rfl, ?_, rfl⟩
          have h5 : (alookup permits sid).getD true = false := by
            revert h3
            cases (alookup permits sid).getD true <;> simp
          exact h5.symm
        · intro _
          exact ⟨_, List.mem_singleton.mpr rfl, rfl⟩
        · intro h0
          show st.engineState = .RUNNING ∨ st.engineState = .FAILED
          exact h0
        · intro h0
          exfalso
          exact h2 (Or.inr h0)
        · intro _ h0
          exact absurd h0 (by simp)
        · intro _
          simp
  · rw [if_neg h1]
    refine ⟨.skipped, [], [], rfl, rfl, by rw [List.append_nil]; rfl, ?_, ?_, ?_, ?_, ?_,
      ?_, ?_, ?_⟩
    · intro e he
      simp at he
    · intro c hc
      simp at hc
    · intro h0
      exact absurd rfl h0
    · intro h0
      exact absurd h0 (by simp)
    · intro h0
      show st.engineState = .RUNNING ∨ st.engineState = .FAILED
      exact h0
    · intro h0
      exact ⟨h0, rfl⟩
    · intro _ h0
      exact absurd h0 (by simp)
    · intro h0
      exact absurd rfl h0

/-! ## Engine lemmas: the pipeline loop -/

theorem pickReady_spec {em : SpineEngineModel} {inj : List (String × List String)}
    {st : PipelineState} {s : String × ExecutableItem}
    (h : pickReady em inj st = some s) :
    s ∈ em.solids ∧ s.1 ∉ processedIds st
    ∧ ∀ d ∈ (alookup inj s.1).getD [], d ∈ processedIds st := by
  unfold pickReady at h
  have hmem := List.mem_of_find?_eq_some h
  have hp := List.find?_some h
  rw [Bool.and_eq_true] at hp
  obtain ⟨hp1, hp2⟩ := hp
  refine ⟨hmem, by simpa using hp1, ?_⟩
  intro d hd
  have := List.all_eq_true.mp hp2 d hd
  simpa using this

theorem runPipeline_zero (em : SpineEngineModel) (dir : ExecutionDirection)
    (inj : List (String × List String)) (permits : List (String × Bool))
    (st : PipelineState) : runPipeline em dir inj permits 0 st = st := rfl

theorem runPipeline_succ_none {em : SpineEngineModel} {dir : ExecutionDirection}
    {inj : List (String × List String)} {permits : List (String × Bool)}
    (fuel : Nat) {st : PipelineState} (h : pickReady em inj st = none) :
    runPipeline em dir inj permits (fuel + 1) st = st := by
  rw [runPipeline, h]

theorem runPipeline_succ_some {em : SpineEngineModel} {dir : ExecutionDirection}
    {inj : List (String × List String)} {permits : List (String × Bool)}
    (fuel : Nat) {st : PipelineState} {s : String × ExecutableItem}
    (h : pickReady em inj st = some s) :
    runPipeline em dir inj permits (fuel + 1) st =
      runPipeline em dir inj permits fuel
        (execSolidStep em dir inj permits st s.1 s.2) := by
  rw [runPipeline, h]

/-- An existing step outcome survives the recording of a fresh solid's
outcome. -/
theorem alookup_outcomes_mono {st : PipelineState} {sid : String} {o : StepOutcome}
    (hsid : sid ∉ processedIds st) {d : String} {v : StepOutcome}
    (h : alookup st.outcomes d = some v) :
    alookup ((sid, o) :: st.outcomes) d = some v := by
  rw [alookup_cons]
  by_cases he : (sid, o).1 = d
  · exfalso
    apply hsid
    show sid ∈ st.outcomes.map (·.1)
    have hdm : (d, v) ∈ st.outcomes := mem_of_alookup_eq_some h
    have : d ∈ st.outcomes.map (·.1) := List.mem_map_of_mem (·.1) hdm
    rw [show sid = d from he]
    exact this
  · rw [if_neg he]
    exact h

/-- A pipeline run only prepends step outcomes. -/
theorem runPipeline_outcomes_extend (em : SpineEngineModel) (dir : ExecutionDirection)
    (inj : List (String × List String)) (permits : List (String × Bool)) :
    ∀ (fuel : Nat) (st : PipelineState), ∃ no,
      (runPipeline em dir inj permits fuel st).outcomes = no ++ st.outcomes := by
  intro fuel
  induction fuel with
  | zero => intro st; exact ⟨[], rfl⟩
  | succ fuel ih =>
      intro st
      cases hp : pickReady em inj st with
      | none =>
          rw [runPipeline_succ_none fuel hp]
          exact ⟨[], rfl⟩
      | some s =>
          rw [runPipeline_succ_some fuel hp]
          obtain ⟨o, nc, np, houtc, -, -, -, -, -, -, -, -, -, -⟩ :=
            execSolidStep_spec em dir inj permits st s.1 s.2
          obtain ⟨no, hno⟩ := ih (execSolidStep em dir inj permits st s.1 s.2)
          refine ⟨no ++ [(s.1, o)], ?_⟩
          rw [hno, houtc, List.append_assoc]
          rfl

/-- Processed solids stay processed. -/
theorem runPipeline_processed_mono (em : SpineEngineModel) (dir : ExecutionDirection)
    (inj : List (String × List String)) (permits : List (String × Bool))
    (fuel : Nat) (st : PipelineState) (n : String) (hn : n ∈ processedIds st) :
    n ∈ processedIds (runPipeline em dir inj permits fuel st) := by
  obtain ⟨no, h⟩ := runPipeline_outcomes_extend em dir inj permits fuel st
  show n ∈ (runPipeline em dir inj permits fuel st).outcomes.map (·.1)
  rw [h, List.map_append]
  exact List.mem_append_right _ hn

/-- The engine state stays in `{RUNNING, FAILED}` through a pipeline run. -/
theorem runPipeline_state_mem (em : SpineEngineModel) (dir : ExecutionDirection)
    (inj : List (String × List String)) (permits : List (String × Bool)) :
    ∀ (fuel : Nat) (st : PipelineState),
      (st.engineState = .RUNNING ∨ st.engineState = .FAILED) →
      ((runPipeline em dir inj permits fuel st).engineState = .RUNNING
        ∨ (runPipeline em dir inj permits fuel st).engineState = .FAILED) := by
  intro fuel
  induction fuel with
  | zero => intro st h; exact h
  | succ fuel ih =>
      intro st h
      cases hp : pickReady em inj st with
      | none => rw [runPipeline_succ_none fuel hp]; exact h
      | some s =>
          rw [runPipeline_succ_some fuel hp]
          obtain ⟨o, nc, np, -, -, -, -, -, -, -, hpres, -, -, -⟩ :=
            execSolidStep_spec em dir inj permits st s.1 s.2
          exact ih _ (hpres h)

/-- `FAILED` is absorbing, and a failed engine makes no further contract
calls. -/
theorem runPipeline_failed_frozen (em : SpineEngineModel) (dir : ExecutionDirection)
    (inj : List (String × List String)) (permits : List (String × Bool)) :
    ∀ (fuel : Nat) (st : PipelineState), st.engineState = .FAILED →
      (runPipeline em dir inj permits fuel st).engineState = .FAILED
      ∧ (runPipeline em dir inj permits fuel st).calls = st.calls := by
  intro fuel
  induction fuel with
  | zero => intro st h; exact ⟨h, rfl⟩
  | succ fuel ih =>
      intro st h
      cases hp : pickReady em inj st with
      | none => rw [runPipeline_succ_none fuel hp]; exact ⟨h, rfl⟩
      | some s =>
          rw [runPipeline_succ_some fuel hp]
          obtain ⟨o, nc, np, -, hcalls, -, -, -, -, -, -, hfail, -, -⟩ :=
            execSolidStep_spec em dir inj permits st s.1 s.2
          obtain ⟨hfe, hfc⟩ := hfail h
          obtain ⟨h1, h2⟩ := ih (execSolidStep em dir inj permits st s.1 s.2) hfe
          refine ⟨h1, ?_⟩
          rw [h2, hcalls, hfc]
          rfl

/-- If a run's final state is not `FAILED`, no step of the run ended in a
failure outcome. -/
theorem runPipeline_no_new_failure (em : SpineEngineModel) (dir : ExecutionDirection)
    (inj : List (String × List String)) (permits : List (String × Bool)) :
    ∀ (fuel : Nat) (st : PipelineState),
      (st.engineState = .RUNNING ∨ st.engineState = .FAILED) →
      (runPipeline em dir inj permits fuel st).engineState ≠ .FAILED →
      ∀ n, (n, StepOutcome.failure) ∈ (runPipeline em dir inj permits fuel st).outcomes →
        (n, StepOutcome.failure) ∈ st.outcomes := by
  intro fuel
  induction fuel with
  | zero => intro st _ _ n hn; exact hn
  | succ fuel ih =>
      intro st hst hne n hn
      cases hp : pickReady em inj st with
      | none =>
          rw [runPipeline_succ_none fuel hp] at hn
          exact hn
      | some s =>
          rw [runPipeline_succ_some fuel hp] at hne hn
          obtain ⟨o, nc, np, houtc, -, -, -, -, -, -, hpres, -, hforce, -⟩ :=
            execSolidStep_spec em dir inj permits st s.1 s.2
          by_cases ho : o = .failure
          · exact absurd (runPipeline_failed_frozen em dir inj permits fuel _
              (hforce hst ho)).1 hne
          · have hmem := ih _ (hpres hst) hne n hn
            rw [houtc] at hmem
            rcases List.mem_cons.mp hmem with h0 | h0
            · exact absurd (congrArg Prod.snd h0).symm ho
            · exact h0

/-- A pipeline run only appends published events, all stamped with the
pipeline's direction. -/
theorem runPipeline_published (em : SpineEngineModel) (dir : ExecutionDirection)
    (inj : List (String × List String)) (permits : List (String × Bool)) :
    ∀ (fuel : Nat) (st : PipelineState), ∃ np,
      (runPipeline em dir inj permits fuel st).published = st.published ++ np
      ∧ ∀ e ∈ np, e.direction = dir := by
  intro fuel
  induction fuel with
  | zero =>
      intro st
      rw [runPipeline_zero]
      exact ⟨[], by rw [List.append_nil], by intro e he; simp at he⟩
  | succ fuel ih =>
      intro st
      cases hp : pickReady em inj st with
      | none =>
          rw [runPipeline_succ_none fuel hp]
          exact ⟨[], by rw [List.append_nil], by intro e he; simp at he⟩
      | some s =>
          rw [runPipeline_succ_some fuel hp]
          obtain ⟨o, nc, np0, -, -, hpub, hpdir, -, -, -, -, -, -, -⟩ :=
            execSolidStep_spec em dir inj permits st s.1 s.2
          obtain ⟨np1, hnp1, hdir1⟩ := ih (execSolidStep em dir inj permits st s.1 s.2)
          refine ⟨np0 ++ np1, ?_, ?_⟩
          · rw [hnp1, hpub, List.append_assoc]
          · intro e he
            rcases List.mem_append.mp he with h0 | h0
            · exact hpdir e h0
            · exact hdir1 e h0

/-- A pipeline run only prepends contract calls; every new call is stamped
with the pipeline's direction and records the permit decision and the
flattened injector inputs of its solid. -/
theorem runPipeline_calls (em : SpineEngineModel) (dir : ExecutionDirection)
    (inj : List (String × List String)) (permits : List (String × Bool)) :
    ∀ (fuel : Nat) (st : PipelineState), ∃ nc,
      (runPipeline em dir inj permits fuel st).calls = nc ++ st.calls
      ∧ ∀ c ∈ nc, c.direction = dir
        ∧ c.isExecute = (alookup permits c.solidId).getD true
        ∧ c.inputs = ((alookup inj c.solidId).getD []).flatMap
            (fun d => em.outputsOfSolid d dir) := by
  intro fuel
  induction fuel with
  | zero => intro st; exact ⟨[], rfl, by intro c hc; simp at hc⟩
  | succ fuel ih =>
      intro st
      cases hp : pickReady em inj st with
      | none =>
          rw [runPipeline_succ_none fuel hp]
          exact ⟨[], rfl, by intro c hc; simp at hc⟩
      | some s =>
          rw [runPipeline_succ_some fuel hp]
          obtain ⟨o, nc0, np, -, hcalls, -, -, hcprops, -, -, -, -, -, -⟩ :=
            execSolidStep_spec em dir inj permits st s.1 s.2
          obtain ⟨nc1, hnc1, hprops1⟩ := ih (execSolidStep em dir inj permits st s.1 s.2)
          refine ⟨nc1 ++ nc0, ?_, ?_⟩
          · rw [hnc1, hcalls, List.append_assoc]
          · intro c hc
            rcases List.mem_append.mp hc with h0 | h0
            · exact hprops1 c h0
            · obtain ⟨hd, hsid, hex, hin⟩ := hcprops c h0
              rw [hsid]
              exact ⟨hd, hex, hin⟩

/-- Every solid that ends a pipeline run with a `success` outcome had a
contract call in that run's direction. -/
theorem runPipeline_success_call (em : SpineEngineModel) (dir : ExecutionDirection)
    (inj : List (String × List String)) (permits : List (String × Bool)) :
    ∀ (fuel : Nat) (st : PipelineState),
      (∀ n, alookup st.outcomes n = some .success →
        ∃ c ∈ st.calls, c.solidId = n ∧ c.direction = dir) →
      ∀ n, alookup (runPipeline em dir inj permits fuel st).outcomes n = some .success →
        ∃ c ∈ (runPipeline em dir inj permits fuel st).calls,
          c.solidId = n ∧ c.direction = dir := by
  intro fuel
  induction fuel with
  | zero => intro st h; exact h
  | succ fuel ih =>
      intro st h
      cases hp : pickReady em inj st with
      | none => rw [runPipeline_succ_none fuel hp]; exact h
      | some s =>
          rw [runPipeline_succ_some fuel hp]
          obtain ⟨o, nc, np, houtc, hcalls, -, -, hcprops, -, hsucc, -, -, -, -⟩ :=
            execSolidStep_spec em dir inj permits st s.1 s.2
          apply ih
          intro n hn
          rw [houtc, alookup_cons] at hn
          by_cases he : (s.1, o).1 = n
          · rw [if_pos he] at hn
            have ho : o = .success := Option.some_injective _ hn
            obtain ⟨c, hc, hcsid⟩ := hsucc ho
            refine ⟨c, ?_, ?_, (hcprops c hc).1⟩
            · rw [hcalls]
              exact List.mem_append_left _ hc
            · rw [hcsid]
              exact he
          · rw [if_neg he] at hn
            obtain ⟨c, hc, hcsid, hcdir⟩ := h n hn
            refine ⟨c, ?_, hcsid, hcdir⟩
            rw [hcalls]
            exact List.mem_append_right _ hc
/-- The dependency-closure invariant of a pipeline run: processed ids stay
distinct, a successful solid has all its injector dependencies successful,
and a solid with a contract call in the run's direction has all its
injector dependencies successful. -/
theorem runPipeline_closure (em : SpineEngineModel) (dir : ExecutionDirection)
    (inj : List (String × List String)) (permits : List (String × Bool)) :
    ∀ (fuel : Nat) (st : PipelineState),
      (processedIds st).Nodup →
      (∀ n, alookup st.outcomes n = some .success →
        ∀ d ∈ (alookup inj n).getD [], alookup st.outcomes d = some .success) →
      (∀ n, (∃ c ∈ st.calls, c.direction = dir ∧ c.solidId = n) →
        ∀ d ∈ (alookup inj n).getD [], alookup st.outcomes d = some .success) →
      (processedIds (runPipeline em dir inj permits fuel st)).Nodup
      ∧ (∀ n, alookup (runPipeline em dir inj permits fuel st).outcomes n
            = some .success →
          ∀ d ∈ (alookup inj n).getD [],
            alookup (runPipeline em dir inj permits fuel st).outcomes d
              = some .success)
      ∧ (∀ n, (∃ c ∈ (runPipeline em dir inj permits fuel st).calls,
            c.direction = dir ∧ c.solidId = n) →
          ∀ d ∈ (alookup inj n).getD [],
            alookup (runPipeline em dir inj permits fuel st).outcomes d
              = some .success) := by
  intro fuel
  induction fuel with
  | zero => intro st h1 h2 h3; exact ⟨h1, h2, h3⟩
  | succ fuel ih =>
      intro st h1 h2 h3
      cases hp : pickReady em inj st with
      | none => rw [runPipeline_succ_none fuel hp]; exact ⟨h1, h2, h3⟩
      | some s =>
          rw [runPipeline_succ_some fuel hp]
          obtain ⟨-, hsnp, -⟩ := pickReady_spec hp
          obtain ⟨o, nc, np, houtc, hcalls, -, -, hcprops, hdeps, -, -, -, -, hncne⟩ :=
            execSolidStep_spec em dir inj permits st s.1 s.2
          have hproc : processedIds (execSolidStep em dir inj permits st s.1 s.2)
              = s.1 :: processedIds st := by
            show (execSolidStep em dir inj permits st s.1 s.2).outcomes.map (·.1)
              = s.1 :: st.outcomes.map (·.1)
            rw [houtc, List.map_cons]
          apply ih
          · rw [hproc, List.nodup_cons]
            exact ⟨hsnp, h1⟩
          · intro n hn d hd
            rw [houtc, alookup_cons] at hn
            rw [houtc]
            by_cases he : (s.1, o).1 = n
            · rw [if_pos he] at hn
              have ho : o = .success := Option.some_injective _ hn
              have hd2 : d ∈ (alookup inj s.1).getD [] := by
                rw [show (s.1 : String) = n from he]
                exact hd
              have hds := hdeps (by rw [ho]; simp) d hd2
              exact alookup_outcomes_mono hsnp hds
            · rw [if_neg he] at hn
              exact alookup_outcomes_mono hsnp (h2 n hn d hd)
          · intro n hcex d hd
            obtain ⟨c, hc, hcdir, hcsid⟩ := hcex
            rw [hcalls] at hc
            rw [houtc]
            rcases List.mem_append.mp hc with h0 | h0
            · have hcs : c.solidId = s.1 := (hcprops c h0).2.1
              have hns : (s.1 : String) = n := by rw [← hcs, hcsid]
              have hone : o ≠ .skipped := hncne (List.ne_nil_of_mem h0)
              have hd2 : d ∈ (alookup inj s.1).getD [] := by
                rw [hns]
                exact hd
              exact alookup_outcomes_mono hsnp (hdeps hone d hd2)
            · exact alookup_outcomes_mono hsnp (h3 n ⟨c, h0, hcdir, hcsid⟩ d hd)

/-- The topological-order invariant: in the (newest-first) outcome list of a
pipeline run, every injector dependency of a solid was recorded strictly
earlier (further toward the tail). -/
theorem runPipeline_order (em : SpineEngineModel) (dir : ExecutionDirection)
    (inj : List (String × List String)) (permits : List (String × Bool)) :
    ∀ (fuel : Nat) (st : PipelineState),
      (∀ pre n o post, st.outcomes = pre ++ (n, o) :: post →
        ∀ d ∈ (alookup inj n).getD [], ∃ o2, (d, o2) ∈ post) →
      ∀ pre n o post,
        (runPipeline em dir inj permits fuel st).outcomes = pre ++ (n, o) :: post →
        ∀ d ∈ (alookup inj n).getD [], ∃ o2, (d, o2) ∈ post := by
  intro fuel
  induction fuel with
  | zero => intro st h; exact h
  | succ fuel ih =>
      intro st h
      cases hp : pickReady em inj st with
      | none => rw [runPipeline_succ_none fuel hp]; exact h
      | some s =>
          rw [runPipeline_succ_some fuel hp]
          obtain ⟨-, -, hready⟩ := pickReady_spec hp
          obtain ⟨o0, nc, np, houtc, -, -, -, -, -, -, -, -, -, -⟩ :=
            execSolidStep_spec em dir inj permits st s.1 s.2
          apply ih
          intro pre n o post hsplit d hd
          rw [houtc] at hsplit
          cases pre with
          | nil =>
              rw [List.nil_append] at hsplit
              have hhead : (s.1, o0) = (n, o) := (List.cons.injEq .. ▸ hsplit).1
              have htail : st.outcomes = post := (List.cons.injEq .. ▸ hsplit).2
              have hd2 : d ∈ (alookup inj s.1).getD [] := by
                rw [congrArg Prod.fst hhead]
                exact hd
              have hdp : d ∈ processedIds st := hready d hd2
              obtain ⟨pr, hpr, hprd⟩ := List.mem_map.mp hdp
              refine ⟨pr.2, ?_⟩
              rw [← htail]
              have : pr = (d, pr.2) := by
                rw [← hprd]
              rw [← this]
              exact hpr
          | cons e pre2 =>
              rw [List.cons_append] at hsplit
              have htail : st.outcomes = pre2 ++ (n, o) :: post :=
                (List.cons.injEq .. ▸ hsplit).2
              exact h pre2 n o post htail d hd

/-- Every nonempty list has an element of minimal rank. -/
theorem list_exists_min_nat {α : Type} (f : α → Nat) :
    ∀ (l : List α), l ≠ [] → ∃ u ∈ l, ∀ v ∈ l, f u ≤ f v := by
  intro l
  induction l with
  | nil => intro h; exact absurd rfl h
  | cons a t ih =>
      intro _
      cases t with
      | nil =>
          refine ⟨a, List.mem_singleton.mpr rfl, ?_⟩
          intro v hv
          rw [List.mem_singleton.mp hv]
      | cons b t2 =>
          obtain ⟨u, hu, hmin⟩ := ih (by simp)
          by_cases hle : f a ≤ f u
          · refine ⟨a, List.mem_cons_self a (b :: t2), ?_⟩
            intro v hv
            rcases List.mem_cons.mp hv with h0 | h0
            · rw [h0]
            · exact le_trans hle (hmin v h0)
          · refine ⟨u, List.mem_cons_of_mem a hu, ?_⟩
            intro v hv
            rcases List.mem_cons.mp hv with h0 | h0
            · rw [h0]
              exact le_of_lt (Nat.lt_of_not_le hle)
            · exact hmin v h0

/-- Filtering one occurrence out of a duplicate-free list shortens it by
exactly one. -/
theorem length_filter_ne_succ {a : String} :
    ∀ {l : List String}, l.Nodup → a ∈ l →
      (l.filter (fun n => decide (n ≠ a))).length + 1 = l.length := by
  intro l
  induction l with
  | nil => intro _ ha; simp at ha
  | cons b t ih =>
      intro hnd ha
      rw [List.nodup_cons] at hnd
      rcases List.mem_cons.mp ha with h0 | h0
      · rw [List.filter_cons, if_neg (by simp [h0]), List.filter_eq_self.mpr]
        · rfl
        · intro x hx
          simp only [decide_eq_true_eq]
          intro hxa
          apply hnd.1
          rw [← h0, ← hxa]
          exact hx
      · have hba : ¬(b = a) := by
          intro hq
          apply hnd.1
          rw [hq]
          exact h0
        rw [List.filter_cons, if_pos (by simp [hba]), List.length_cons,
          List.length_cons]
        rw [ih hnd.2 h0]

/-- While an unprocessed solid remains, the scheduler finds a ready one
(using a topological ranking of the dependency graph). -/
theorem pickReady_isSome_of_unprocessed (em : SpineEngineModel)
    (inj : List (String × List String)) (st : PipelineState)
    (f : String → Nat)
    (hf : ∀ s ∈ em.solids, ∀ d ∈ (alookup inj s.1).getD [],
        d ∈ em.solids.map (·.1) ∧ f d < f s.1)
    (hun : ∃ s ∈ em.solids, s.1 ∉ processedIds st) :
    ∃ s, pickReady em inj st = some s := by
  obtain ⟨s0, hs0, hs0n⟩ := hun
  have hne : (em.solids.map (·.1)).filter
      (fun n => decide (n ∉ processedIds st)) ≠ [] := by
    apply List.ne_nil_of_mem (a := s0.1)
    exact List.mem_filter.mpr ⟨List.mem_map_of_mem (·.1) hs0, by simpa using hs0n⟩
  obtain ⟨u, hu, humin⟩ := list_exists_min_nat f _ hne
  have hu2 := List.mem_filter.mp hu
  obtain ⟨su, hsu, hsu1⟩ := List.mem_map.mp hu2.1
  have hunp : u ∉ processedIds st := by simpa using hu2.2
  have hready : ∀ d ∈ (alookup inj u).getD [], d ∈ processedIds st := by
    intro d hd
    have hd2 : d ∈ (alookup inj su.1).getD [] := by
      rw [hsu1]
      exact hd
    obtain ⟨hdk, hdlt⟩ := hf su hsu d hd2
    by_contra hdn
    have hdu : d ∈ (em.solids.map (·.1)).filter
        (fun n => decide (n ∉ processedIds st)) :=
      List.mem_filter.mpr ⟨hdk, by simpa using hdn⟩
    have := humin d hdu
    rw [hsu1] at hdlt
    omega
  cases hfind : pickReady em inj st with
  | some s => exact ⟨s, rfl⟩
  | none =>
      exfalso
      unfold pickReady at hfind
      have hnp := List.find?_eq_none.mp hfind su hsu
      apply hnp
      rw [Bool.and_eq_true]
      constructor
      · rw [hsu1]
        simpa using hunp
      · rw [List.all_eq_true]
        intro d hd
        rw [hsu1] at hd
        simpa using hready d hd

/-- With enough fuel and a topological ranking, a pipeline run processes
every solid. -/
theorem runPipeline_total (em : SpineEngineModel) (dir : ExecutionDirection)
    (inj : List (String × List String)) (permits : List (String × Bool))
    (f : String → Nat)
    (hf : ∀ s ∈ em.solids, ∀ d ∈ (alookup inj s.1).getD [],
        d ∈ em.solids.map (·.1) ∧ f d < f s.1)
    (hnd : (em.solids.map (·.1)).Nodup) :
    ∀ (fuel : Nat) (st : PipelineState),
      ((em.solids.map (·.1)).filter
        (fun n => decide (n ∉ processedIds st))).length ≤ fuel →
      ∀ s ∈ em.solids, s.1 ∈ processedIds (runPipeline em dir inj permits fuel st) := by
  intro fuel
  induction fuel with
  | zero =>
      intro st hlen s hs
      rw [runPipeline_zero]
      by_contra hnp
      have hmem : s.1 ∈ (em.solids.map (·.1)).filter
          (fun n => decide (n ∉ processedIds st)) :=
        List.mem_filter.mpr ⟨List.mem_map_of_mem (·.1) hs, by simpa using hnp⟩
      have := List.length_pos.mpr (List.ne_nil_of_mem hmem)
      omega
  | succ fuel ih =>
      intro st hlen s hs
      by_cases hall : ∀ t ∈ em.solids, t.1 ∈ processedIds st
      · cases hp : pickReady em inj st with
        | none =>
            rw [runPipeline_succ_none fuel hp]
            exact hall s hs
        | some s2 =>
            rw [runPipeline_succ_some fuel hp]
            apply runPipeline_processed_mono
            obtain ⟨o, nc, np, houtc, -, -, -, -, -, -, -, -, -, -⟩ :=
              execSolidStep_spec em dir inj permits st s2.1 s2.2
            show s.1 ∈ (execSolidStep em dir inj permits st s2.1 s2.2).outcomes.map (·.1)
            rw [houtc, List.map_cons]
            exact List.mem_cons_of_mem _ (hall s hs)
      · push_neg at hall
        obtain ⟨t, ht, htn⟩ := hall
        obtain ⟨s2, hp⟩ := pickReady_isSome_of_unprocessed em inj st f hf ⟨t, ht, htn⟩
        rw [runPipeline_succ_some fuel hp]
        obtain ⟨hmem2, hnp2, -⟩ := pickReady_spec hp
        obtain ⟨o, nc, np, houtc, -, -, -, -, -, -, -, -, -, -⟩ :=
          execSolidStep_spec em dir inj permits st s2.1 s2.2
        have hproc : processedIds (execSolidStep em dir inj permits st s2.1 s2.2)
            = s2.1 :: processedIds st := by
          show (execSolidStep em dir inj permits st s2.1 s2.2).outcomes.map (·.1)
            = s2.1 :: st.outcomes.map (·.1)
          rw [houtc, List.map_cons]
        apply ih
        · have hfilter : (em.solids.map (·.1)).filter
              (fun n => decide (n ∉ processedIds
                (execSolidStep em dir inj permits st s2.1 s2.2)))
              = ((em.solids.map (·.1)).filter
                  (fun n => decide (n ∉ processedIds st))).filter
                (fun n => decide (n ≠ s2.1)) := by
            rw [List.filter_filter]
            apply List.filter_congr
            intro n _
            rw [hproc]
            simp [List.mem_cons, not_or, Bool.and_comm]
          rw [hfilter]
          have hsmem : s2.1 ∈ (em.solids.map (·.1)).filter
              (fun n => decide (n ∉ processedIds st)) :=
            List.mem_filter.mpr ⟨List.mem_map_of_mem (·.1) hmem2, by simpa using hnp2⟩
          have hndf : ((em.solids.map (·.1)).filter
              (fun n => decide (n ∉ processedIds st))).Nodup := hnd.filter _
          have := length_filter_ne_succ hndf hsmem
          omega
        · exact hs

/-! ## The run as a whole -/

theorem runFinalState_calls (em : SpineEngineModel) :
    em.runFinalState.calls = em.runForwardState.calls := by
  show (if em.runForwardState.engineState = .RUNNING
    then { em.runForwardState with engineState := .COMPLETED }
    else em.runForwardState).calls = em.runForwardState.calls
  by_cases h : em.runForwardState.engineState = .RUNNING
  · rw [if_pos h]
  · rw [if_neg h]

theorem runFinalState_published (em : SpineEngineModel) :
    em.runFinalState.published = em.runForwardState.published := by
  show (if em.runForwardState.engineState = .RUNNING
    then { em.runForwardState with engineState := .COMPLETED }
    else em.runForwardState).published = em.runForwardState.published
  by_cases h : em.runForwardState.engineState = .RUNNING
  · rw [if_pos h]
  · rw [if_neg h]

theorem runFinalState_failed (em : SpineEngineModel)
    (h : em.runForwardState.engineState = .FAILED) :
    em.runFinalState.engineState = .FAILED := by
  show (if em.runForwardState.engineState = .RUNNING
    then { em.runForwardState with engineState := .COMPLETED }
    else em.runForwardState).engineState = .FAILED
  rw [if_neg (by rw [h]; simp)]
  exact h

/-- A node transitively depending on a non-successful node is itself not
successful, under the direct-dependency success-closure property. -/
theorem dependsOn_not_success (inj : List (String × List String))
    (out : List (String × StepOutcome))
    (hQ : ∀ m, alookup out m = some .success →
      ∀ d ∈ (alookup inj m).getD [], alookup out d = some .success) :
    ∀ m f, DependsOn inj m f → alookup out f ≠ some .success →
      alookup out m ≠ some .success := by
  intro m f hdep
  induction hdep with
  | direct hd => intro hf hms; exact hf (hQ _ hms _ hd)
  | trans hm hdep3 ih => intro hf hms; exact ih hf (hQ _ hms _ hm)

/-- **C2** (amended).  What holds of a failing step: (a) a failure outcome
in either pass drives the final engine state to `FAILED`; (b) a node that
transitively depends on a node without a `success` outcome is never handed
to its execution contract in the forward pass and does not succeed.  What
the original claim got wrong: the failure is not confined to the failed
node's cone — once the state is `FAILED`, `compute_fn` raises `Failure`
for every subsequently scheduled solid, so (c) a step taken in a `FAILED`
state makes no contract call at all, and independent branches scheduled
after the failure is observed do not execute to completion
(`claim_C2_counterexample`). -/
theorem claim_C2 (em : SpineEngineModel) :
    ((∃ n, (n, StepOutcome.failure) ∈ em.runBackwardState.outcomes)
      ∨ (∃ n, (n, StepOutcome.failure) ∈ em.runForwardState.outcomes) →
      em.runFinalState.engineState = .FAILED)
    ∧ (∀ n f, DependsOn em.forthInjectors n f →
        alookup em.runForwardState.outcomes f ≠ some .success →
        (∀ c ∈ em.runForwardState.calls, c.direction = .FORWARD → c.solidId ≠ n)
        ∧ alookup em.runForwardState.outcomes n ≠ some .success)
    ∧ (∀ dir inj permits st sid item, st.engineState = .FAILED →
        (execSolidStep em dir inj permits st sid item).calls = st.calls
        ∧ (execSolidStep em dir inj permits st sid item).engineState = .FAILED) := by
  refine ⟨?_, ?_, ?_⟩
  · intro hex
    have hbs : em.runBackwardState.engineState = .RUNNING
        ∨ em.runBackwardState.engineState = .FAILED :=
      runPipeline_state_mem em .BACKWARD em.backInjectors em.fixedPermits
        em.items.length { initialPipelineState with engineState := .RUNNING }
        (Or.inl rfl)
    have hfwd : em.runForwardState.engineState = .FAILED := by
      rcases hex with ⟨n, hn⟩ | ⟨n, hn⟩
      · have hbf : em.runBackwardState.engineState = .FAILED := by
          by_contra hne
          have h0 := runPipeline_no_new_failure em .BACKWARD em.backInjectors
            em.fixedPermits em.items.length
            { initialPipelineState with engineState := .RUNNING } (Or.inl rfl)
            hne n hn
          have h1 : (n, StepOutcome.failure) ∈ ([] : List (String × StepOutcome)) := h0
          simp at h1
        exact (runPipeline_failed_frozen em .FORWARD em.forthInjectors
          em.fixedPermits em.items.length
          { em.runBackwardState with outcomes := [] } hbf).1
      · by_contra hne
        have h0 := runPipeline_no_new_failure em .FORWARD em.forthInjectors
          em.fixedPermits em.items.length
          { em.runBackwardState with outcomes := [] } hbs hne n hn
        have h1 : (n, StepOutcome.failure) ∈ ([] : List (String × StepOutcome)) := h0
        simp at h1
    exact runFinalState_failed em hfwd
  · intro n f hdep hnf
    obtain ⟨nc1, hnc1, hdir1⟩ := runPipeline_calls em .BACKWARD em.backInjectors
      em.fixedPermits em.items.length
      { initialPipelineState with engineState := .RUNNING }
    have hbdir : ∀ c ∈ em.runBackwardState.calls, c.direction = .BACKWARD := by
      intro c hc
      have hc2 : c ∈ nc1 ++ ({ initialPipelineState with
          engineState := SpineEngineState.RUNNING } : PipelineState).calls := by
        rw [← hnc1]
        exact hc
      rcases List.mem_append.mp hc2 with h0 | h0
      · exact (hdir1 c h0).1
      · exact absurd (show c ∈ ([] : List TraceCall) from h0) (by simp)
    obtain ⟨-, hQ, hP⟩ := runPipeline_closure em .FORWARD em.forthInjectors
      em.fixedPermits em.items.length { em.runBackwardState with outcomes := [] }
      (show (([] : List (String × StepOutcome)).map (·.1)).Nodup from List.nodup_nil)
      (by
        intro m hm d hd
        exact absurd (show (none : Option StepOutcome) = some .success from hm)
          (by simp))
      (by
        intro m hmex d hd
        obtain ⟨c, hc, hcdir, -⟩ := hmex
        have hcb := hbdir c hc
        rw [hcb] at hcdir
        exact absurd hcdir (by simp))
    have hQ2 : ∀ m, alookup em.runForwardState.outcomes m = some .success →
        ∀ d ∈ (alookup em.forthInjectors m).getD [],
          alookup em.runForwardState.outcomes d = some .success := hQ
    have hP2 : ∀ m, (∃ c ∈ em.runForwardState.calls,
          c.direction = .FORWARD ∧ c.solidId = m) →
        ∀ d ∈ (alookup em.forthInjectors m).getD [],
          alookup em.runForwardState.outcomes d = some .success := hP
    have hN : ∀ m, DependsOn em.forthInjectors m f →
        alookup em.runForwardState.outcomes m ≠ some .success :=
      fun m hdep2 =>
        dependsOn_not_success em.forthInjectors em.runForwardState.outcomes
          hQ2 m f hdep2 hnf
    constructor
    · intro c hc hcdir heq
      cases hdep with
      | direct hd => exact hnf (hP2 n ⟨c, hc, hcdir, heq⟩ f hd)
      | trans hm hdep3 => exact hN _ hdep3 (hP2 n ⟨c, hc, hcdir, heq⟩ _ hm)
    · exact hN n hdep
  · intro dir inj permits st sid item h
    obtain ⟨o, nc, np, -, hcalls, -, -, -, -, -, -, hfail, -, -⟩ :=
      execSolidStep_spec em dir inj permits st sid item
    obtain ⟨hfe, hfc⟩ := hfail h
    refine ⟨?_, hfe⟩
    rw [hcalls, hfc]
    rfl

/-- **C2** (counterexample to the original claim).  In `twoItemEngine`
exactly one execute contract fails (item "F", forward direction), and item
"I" (solid id "1") shares no edge with "F" — yet after the failure the
independent item's forward step also ends in a failure outcome with no
contract call: the independent branch does not execute to completion, and
its step is not merely "skipped downstream of the failed node". -/
theorem claim_C2_counterexample :
    (twoItemEngine.items.map
        (fun it => (it.executeOk .FORWARD, it.executeOk .BACKWARD))
      = [(false, true), (true, true)])
    ∧ twoItemEngine.successors = []
    ∧ twoItemEngine.runFinalState.engineState = .FAILED
    ∧ alookup twoItemEngine.runForwardState.outcomes "1" = some .failure
    ∧ (∀ c ∈ twoItemEngine.runFinalState.calls,
        c.direction = .FORWARD → c.solidId ≠ "1") := by
  decide

theorem claim_C2_witness :
    twoItemEngine.runFinalState.engineState = .FAILED :=
  (claim_C2 twoItemEngine).1 (Or.inr ⟨"0", by decide⟩)

/-- **C7.**  With the execution permit of a solid resolved to `False`:
every contract call of the whole run for that solid is a
`skip_execution` call (never `old_execute`); when the solid's step
succeeds in a pass, such a skip call was actually made in that pass; and
the solid's declared output resources are still part of the flattened
inputs of every call of a dependent solid in the corresponding
direction. -/
theorem claim_C7 (em : SpineEngineModel) (sid : String)
    (hpermit : alookup em.fixedPermits sid = some false) :
    (∀ c ∈ em.runFinalState.calls, c.solidId = sid → c.isExecute = false)
    ∧ (alookup em.runBackwardState.outcomes sid = some .success →
        ∃ c ∈ em.runBackwardState.calls, c.solidId = sid
          ∧ c.direction = .BACKWARD ∧ c.isExecute = false)
    ∧ (alookup em.runForwardState.outcomes sid = some .success →
        ∃ c ∈ em.runForwardState.calls, c.solidId = sid
          ∧ c.direction = .FORWARD ∧ c.isExecute = false)
    ∧ (∀ c ∈ em.runFinalState.calls,
        sid ∈ (alookup (em.injectors c.direction) c.solidId).getD [] →
        ∀ r ∈ em.outputsOfSolid sid c.direction, r ∈ c.inputs) := by
  obtain ⟨nc1, hnc1, hprops1⟩ := runPipeline_calls em .BACKWARD em.backInjectors
    em.fixedPermits em.items.length
    { initialPipelineState with engineState := .RUNNING }
  obtain ⟨nc2, hnc2, hprops2⟩ := runPipeline_calls em .FORWARD em.forthInjectors
    em.fixedPermits em.items.length { em.runBackwardState with outcomes := [] }
  have hshapeB : ∀ c ∈ em.runBackwardState.calls,
      c.isExecute = (alookup em.fixedPermits c.solidId).getD true
      ∧ c.inputs = ((alookup (em.injectors c.direction) c.solidId).getD []).flatMap
          (fun d => em.outputsOfSolid d c.direction) := by
    intro c hc
    have hc2 : c ∈ nc1 ++ ({ initialPipelineState with
        engineState := SpineEngineState.RUNNING } : PipelineState).calls := by
      rw [← hnc1]
      exact hc
    rcases List.mem_append.mp hc2 with h0 | h0
    · obtain ⟨hd, hex, hin⟩ := hprops1 c h0
      rw [hd]
      exact ⟨hex, hin⟩
    · exact absurd (show c ∈ ([] : List TraceCall) from h0) (by simp)
  have hshape : ∀ c ∈ em.runForwardState.calls,
      c.isExecute = (alookup em.fixedPermits c.solidId).getD true
      ∧ c.inputs = ((alookup (em.injectors c.direction) c.solidId).getD []).flatMap
          (fun d => em.outputsOfSolid d c.direction) := by
    intro c hc
    have hc2 : c ∈ nc2 ++ ({ em.runBackwardState with
        outcomes := ([] : List (String × StepOutcome)) } : PipelineState).calls := by
      rw [← hnc2]
      exact hc
    rcases List.mem_append.mp hc2 with h0 | h0
    · obtain ⟨hd, hex, hin⟩ := hprops2 c h0
      rw [hd]
      exact ⟨hex, hin⟩
    · exact hshapeB c h0
  refine ⟨?_, ?_, ?_, ?_⟩
  · intro c hc heq
    rw [runFinalState_calls] at hc
    have h1 := (hshape c hc).1
    rw [heq, hpermit] at h1
    simpa using h1
  · intro hs
    have hsc := runPipeline_success_call em .BACKWARD em.backInjectors
      em.fixedPermits em.items.length
      { initialPipelineState with engineState := .RUNNING }
      (by
        intro m hm
        exact absurd (show (none : Option StepOutcome) = some .success from hm)
          (by simp))
      sid hs
    obtain ⟨c, hc, hcsid, hcdir⟩ := hsc
    refine ⟨c, hc, hcsid, hcdir, ?_⟩
    have h1 := (hshapeB c hc).1
    rw [hcsid, hpermit] at h1
    simpa using h1
  · intro hs
    have hsc := runPipeline_success_call em .FORWARD em.forthInjectors
      em.fixedPermits em.items.length { em.runBackwardState with outcomes := [] }
      (by
        intro m hm
        exact absurd (show (none : Option StepOutcome) = some .success from hm)
          (by simp))
      sid hs
    obtain ⟨c, hc, hcsid, hcdir⟩ := hsc
    refine ⟨c, hc, hcsid, hcdir, ?_⟩
    have h1 := (hshape c hc).1
    rw [hcsid, hpermit] at h1
    simpa using h1
  · intro c hc hmem r hr
    rw [runFinalState_calls] at hc
    have hin := (hshape c hc).2
    rw [hin]
    exact List.mem_flatMap.mpr ⟨sid, hmem, hr⟩

theorem claim_C7_witness :
    alookup permitEngine.fixedPermits "0" = some false
    ∧ (∀ c ∈ permitEngine.runFinalState.calls,
        c.solidId = "0" → c.isExecute = false) :=
  ⟨by decide, (claim_C7 permitEngine "0" (by decide)).1⟩

/-- **C8.**  The published event stream splits into the whole backward pass
followed by the whole forward pass; with a topological ranking of each
pass's dependency graph and distinct solid ids, every solid is processed
in both passes; and in each pass's (newest-first) outcome list every
injector dependency of a node was recorded strictly before the node — in
the backward pass these dependencies are the node's natural-edge
successors, in the forward pass its natural-edge predecessors. -/
theorem claim_C8 (em : SpineEngineModel)
    (hnd : (em.solids.map (·.1)).Nodup)
    (fb : String → Nat)
    (hfb : ∀ s ∈ em.solids, ∀ d ∈ (alookup em.backInjectors s.1).getD [],
        d ∈ em.solids.map (·.1) ∧ fb d < fb s.1)
    (ff : String → Nat)
    (hff : ∀ s ∈ em.solids, ∀ d ∈ (alookup em.forthInjectors s.1).getD [],
        d ∈ em.solids.map (·.1) ∧ ff d < ff s.1) :
    (∃ bp fp, em.runFinalState.published = bp ++ fp
      ∧ (∀ e ∈ bp, e.direction = .BACKWARD) ∧ (∀ e ∈ fp, e.direction = .FORWARD))
    ∧ (∀ s ∈ em.solids, s.1 ∈ processedIds em.runBackwardState)
    ∧ (∀ s ∈ em.solids, s.1 ∈ processedIds em.runForwardState)
    ∧ (∀ pre n o post, em.runBackwardState.outcomes = pre ++ (n, o) :: post →
        ∀ d ∈ (alookup em.backInjectors n).getD [], ∃ o2, (d, o2) ∈ post)
    ∧ (∀ pre n o post, em.runForwardState.outcomes = pre ++ (n, o) :: post →
        ∀ d ∈ (alookup em.forthInjectors n).getD [], ∃ o2, (d, o2) ∈ post) := by
  have hsolids : em.solids.length = em.items.length := by
    show (em.items.enum.map (fun e => (toString e.1, e.2))).length = em.items.length
    rw [List.length_map, List.enum_length]
  refine ⟨?_, ?_, ?_, ?_, ?_⟩
  · obtain ⟨np1, hnp1, hdir1⟩ := runPipeline_published em .BACKWARD em.backInjectors
      em.fixedPermits em.items.length
      { initialPipelineState with engineState := .RUNNING }
    obtain ⟨np2, hnp2, hdir2⟩ := runPipeline_published em .FORWARD em.forthInjectors
      em.fixedPermits em.items.length { em.runBackwardState with outcomes := [] }
    refine ⟨np1, np2, ?_, hdir1, hdir2⟩
    rw [runFinalState_published]
    have h2 : em.runForwardState.published = em.runBackwardState.published ++ np2 :=
      hnp2
    have h1 : em.runBackwardState.published = [] ++ np1 := hnp1
    rw [h2, h1, List.nil_append]
  · intro s hs
    apply runPipeline_total em .BACKWARD em.backInjectors em.fixedPermits fb hfb hnd
      em.items.length { initialPipelineState with engineState := .RUNNING } ?_ s hs
    have h1 := List.length_filter_le
      (fun n => decide (n ∉ processedIds ({ initialPipelineState with
        engineState := SpineEngineState.RUNNING } : PipelineState)))
      (em.solids.map (·.1))
    have h2 : (em.solids.map (·.1)).length = em.solids.length := List.length_map ..
    omega
  · intro s hs
    apply runPipeline_total em .FORWARD em.forthInjectors em.fixedPermits ff hff hnd
      em.items.length { em.runBackwardState with outcomes := [] } ?_ s hs
    have h1 := List.length_filter_le
      (fun n => decide (n ∉ processedIds ({ em.runBackwardState with
        outcomes := ([] : List (String × StepOutcome)) } : PipelineState)))
      (em.solids.map (·.1))
    have h2 : (em.solids.map (·.1)).length = em.solids.length := List.length_map ..
    omega
  · exact runPipeline_order em .BACKWARD em.backInjectors em.fixedPermits
      em.items.length { initialPipelineState with engineState := .RUNNING }
      (by
        intro pre n o post h d hd
        exact absurd
          (show ([] : List (String × StepOutcome)) = pre ++ (n, o) :: post from h)
          (by cases pre <;> simp))
  · exact runPipeline_order em .FORWARD em.forthInjectors em.fixedPermits
      em.items.length { em.runBackwardState with outcomes := [] }
      (by
        intro pre n o post h d hd
        exact absurd
          (show ([] : List (String × StepOutcome)) = pre ++ (n, o) :: post from h)
          (by cases pre <;> simp))

theorem claim_C8_witness :
    ((chainEngine.solids.map (·.1)).Nodup
      ∧ (∀ s ∈ chainEngine.solids, s.1 ∈ processedIds chainEngine.runBackwardState)
      ∧ (∀ s ∈ chainEngine.solids, s.1 ∈ processedIds chainEngine.runForwardState))
    ∧ (chainEngine.runBackwardState.outcomes.map Prod.fst).reverse = ["2", "1", "0"]
    ∧ (chainEngine.runForwardState.outcomes.map Prod.fst).reverse = ["0", "1", "2"] :=
  ⟨⟨by decide,
    (claim_C8 chainEngine (by decide)
      (fun n => if n = "0" then 2 else if n = "1" then 1 else 0) (by decide)
      (fun n => if n = "2" then 2 else if n = "1" then 1 else 0) (by decide)).2.1,
    (claim_C8 chainEngine (by decide)
      (fun n => if n = "0" then 2 else if n = "1" then 1 else 0) (by decide)
      (fun n => if n = "2" then 2 else if n = "1" then 1 else 0) (by decide)).2.2.1⟩,
   by decide, by decide⟩

end SpineVerif
